import Mathlib

/-!
Verification of the secret-encryption engine of the `shhh` repository.

Go strings and byte slices are modelled as `List Char`, each `Char` standing
for one byte (all relevant literals are ASCII; hypotheses `c.toNat < 256`
appear where byte arithmetic matters, e.g. base64).  Fallible Go functions
returning `(T, error)` are modelled as `Option`/`Except`.  Effectful
transform callbacks are instrumented with an explicit log (the list of
plaintexts the callback was invoked on), so "the transform is never applied"
is a provable statement.  Go `map` iteration order is arbitrary; maps are
modelled as association lists, so theorems quantified over the list cover
every iteration order.
-/

namespace Shhh

/-- ASCII model of Go `unicode.IsSpace` (the space runes below 0x80). -/
def isSpace (c : Char) : Bool :=
  c = ' ' || c = '\t' || c = '\n' || c = Char.ofNat 11 || c = Char.ofNat 12 || c = '\r'

/-- Model of `strings.TrimLeft` over whitespace. -/
def trimL (l : List Char) : List Char :=
  l.dropWhile isSpace

/-- Drop trailing whitespace. -/
def dropTrailing (l : List Char) : List Char :=
  (l.reverse.dropWhile isSpace).reverse

/-- Model of Go `strings.TrimSpace` (ASCII). -/
def trimSpace (l : List Char) : List Char :=
  dropTrailing (trimL l)

/-- Boolean "p is a prefix of s" (Go `strings.HasPrefix`). -/
def isPre : List Char → List Char → Bool
  | [], _ => true
  | _ :: _, [] => false
  | p :: ps, s :: ss => p = s && isPre ps ss

/-- Strip a prefix, returning the remainder when it matches. -/
def dropPre : List Char → List Char → Option (List Char)
  | [], s => some s
  | _ :: _, [] => none
  | p :: ps, s :: ss => if p = s then dropPre ps ss else none

/-- Model of Go `strings.Split(s, "\n")`: the `'\n'`-separated pieces
(always at least one piece). -/
def splitNl : List Char → List (List Char)
  | [] => [[]]
  | c :: rest =>
    if c = '\n' then [] :: splitNl rest
    else
      match splitNl rest with
      | [] => [[c]]
      | l :: ls => (c :: l) :: ls

/-- `bufio.ScanLines` drops one trailing `'\r'` from each line. -/
def dropCR (l : List Char) : List Char :=
  match l.reverse with
  | '\r' :: r => r.reverse
  | _ => l

/-- Lines produced by a `bufio.Scanner` with `ScanLines`: split at `'\n'`,
no token for the empty tail after a final newline, `'\r'` stripped. -/
def scanLines (content : List Char) : List (List Char) :=
  if content = [] then []
  else
    (match (splitNl content).getLast? with
     | some [] => (splitNl content).dropLast
     | _ => splitNl content).map dropCR

/-- Reassemble newline-terminated lines (each line gets a trailing `'\n'`). -/
def joinLines (ls : List (List Char)) : List Char :=
  ls.foldr (fun l acc => l ++ '\n' :: acc) []

/-- Split a line at its first `'='` (Go `strings.Index(line, "=")`). -/
def splitEq : List Char → Option (List Char × List Char)
  | [] => none
  | c :: rest =>
    if c = '=' then some ([], rest)
    else
      match splitEq rest with
      | none => none
      | some (k, v) => some (c :: k, v)

/-- ASCII model of `strings.ToLower`. -/
def lowerChar (c : Char) : Char :=
  if 'A' ≤ c ∧ c ≤ 'Z' then Char.ofNat (c.toNat + 32) else c

/-- ASCII model of `strings.ToUpper`. -/
def upperChar (c : Char) : Char :=
  if 'a' ≤ c ∧ c ≤ 'z' then Char.ofNat (c.toNat - 32) else c

def lowerStr (l : List Char) : List Char := l.map lowerChar

def upperStr (l : List Char) : List Char := l.map upperChar

/-! ### The `ENC[v1:...]` value marker (internal/parser/parser.go) -/

/-- `EncPrefix = "ENC[v1:"`. -/
def encHead : List Char := "ENC[v1:".data

/-- One character of the regexp class `[A-Za-z0-9+/=\s]` (Go regexp `\s`
is `[\t\n\f\r ]`). -/
def isEncChar (c : Char) : Bool :=
  ('A' ≤ c && c ≤ 'Z') || ('a' ≤ c && c ≤ 'z') || ('0' ≤ c && c ≤ '9') ||
  c = '+' || c = '/' || c = '=' ||
  c = '\t' || c = '\n' || c = Char.ofNat 12 || c = '\r' || c = ' '

/-- The capture group of `^ENC\[v1:([A-Za-z0-9+/=\s]+)\]$` when the whole
string matches, `none` otherwise. -/
def markerMidAux (rest : List Char) : Option (List Char) :=
  if rest.getLast? = some ']' ∧ rest.dropLast ≠ [] ∧ rest.dropLast.all isEncChar
  then some rest.dropLast else none

def markerMid (v : List Char) : Option (List Char) :=
  match dropPre encHead v with
  | none => none
  | some rest => markerMidAux rest

/-- `IsEncrypted` from internal/parser/parser.go. -/
def IsEncrypted (v : List Char) : Bool :=
  (markerMid v).isSome

/-- `DecodeValue` from internal/parser/parser.go: on a match, the capture
group with `"\n"` then `" "` removed (`strings.ReplaceAll` twice). -/
def DecodeValue (v : List Char) : Option (List Char) :=
  (markerMid v).map fun mid =>
    (mid.filter fun c => c ≠ '\n').filter fun c => c ≠ ' '

/-- `EncodeValue` from internal/parser/parser.go. -/
def EncodeValue (encryptedData : List Char) : List Char :=
  encHead ++ encryptedData ++ [']']

/-- `MaxFileSize = 50 * 1024 * 1024`. -/
def maxFileSize : Nat := 50 * 1024 * 1024

/-- `MaxNestingDepth = 100`. -/
def maxNestingDepth : Nat := 100

/-- `ValidateContentSize` succeeds iff the content is within the ceiling. -/
def validSize (content : List Char) : Bool :=
  decide (content.length ≤ maxFileSize)

/-! ### base64 (Go `encoding/base64` StdEncoding, modelled on byte lists) -/

def b64Char (n : Nat) : Char :=
  if n < 26 then Char.ofNat (65 + n)
  else if n < 52 then Char.ofNat (97 + (n - 26))
  else if n < 62 then Char.ofNat (48 + (n - 52))
  else if n = 62 then '+' else '/'

def b64Val (c : Char) : Option Nat :=
  if 'A' ≤ c ∧ c ≤ 'Z' then some (c.toNat - 65)
  else if 'a' ≤ c ∧ c ≤ 'z' then some (c.toNat - 97 + 26)
  else if '0' ≤ c ∧ c ≤ '9' then some (c.toNat - 48 + 52)
  else if c = '+' then some 62
  else if c = '/' then some 63
  else none

/-- Standard base64 encoding of a byte list (each `Char` one byte). -/
def b64EncodeList : List Char → List Char
  | [] => []
  | [a] =>
    let x := a.toNat
    [b64Char (x / 4), b64Char (x % 4 * 16), '=', '=']
  | [a, b] =>
    let x := a.toNat
    let y := b.toNat
    [b64Char (x / 4), b64Char (x % 4 * 16 + y / 16), b64Char (y % 16 * 4), '=']
  | a :: b :: c :: rest =>
    let x := a.toNat
    let y := b.toNat
    let z := c.toNat
    b64Char (x / 4) :: b64Char (x % 4 * 16 + y / 16) ::
      b64Char (y % 16 * 4 + z / 64) :: b64Char (z % 64) :: b64EncodeList rest

/-- Standard base64 decoding. -/
def b64DecodeList : List Char → Option (List Char)
  | [] => some []
  | a :: b :: c :: d :: rest =>
    match b64Val a, b64Val b with
    | some va, some vb =>
      if c = '=' ∧ d = '=' ∧ rest = [] then
        some [Char.ofNat (va * 4 + vb / 16)]
      else if d = '=' ∧ rest = [] then
        match b64Val c with
        | some vc =>
          some [Char.ofNat (va * 4 + vb / 16), Char.ofNat (vb % 16 * 16 + vc / 4)]
        | none => none
      else
        match b64Val c, b64Val d with
        | some vc, some vd =>
          match b64DecodeList rest with
          | some tail =>
            some (Char.ofNat (va * 4 + vb / 16) :: Char.ofNat (vb % 16 * 16 + vc / 4) ::
              Char.ofNat (vc % 4 * 64 + vd) :: tail)
          | none => none
        | _, _ => none
    | _, _ => none
  | _ => none

/-! ### ENV parser (internal/parser/env.go) -/

/-- `unquoteValue`: trim, then strip one layer of matching single or double
quotes; returns (value, wasQuoted, quoteChar) with `none` for Go's `0`. -/
def unquoteValue (value : List Char) : List Char × Bool × Option Char :=
  let v := trimSpace value
  match v with
  | [] => ([], false, none)
  | c :: rest =>
    match rest.reverse with
    | [] => (v, false, none)
    | d :: midR =>
      if (c = '"' && d = '"') || (c = '\'' && d = '\'') then (midR.reverse, true, some c)
      else (v, false, none)

/-- The character test inside `needsQuoting`. -/
def quoteUnsafe (c : Char) : Bool :=
  c = ' ' || c = '\t' || c = '"' || c = '\'' || c = '#' || c = '$' || c = '\\' || c = '\n'

/-- `needsQuoting` from env.go. -/
def needsQuoting (v : List Char) : Bool :=
  v.isEmpty || v.any quoteUnsafe

/-- `quoteValue` from env.go. -/
def quoteValue (v : List Char) (quote : Bool) (qc : Option Char) : List Char :=
  if ¬quote ∧ ¬needsQuoting v then v
  else
    let q := qc.getD '"'
    q :: v ++ [q]

def shhhEnvKey : List Char := "_SHHH_".data

/-- `ENVParser.processLine`, instrumented: the second component logs the
scalars the transform was invoked on. -/
def processLineT (f : List Char → Option (List Char)) (encrypting : Bool)
    (line : List Char) : Option (List Char) × List (List Char) :=
  let trimmed := trimSpace line
  if trimmed.isEmpty || isPre ['#'] trimmed then (some line, [])
  else if isPre shhhEnvKey trimmed then (some line, [])
  else
    match splitEq line with
    | none => (some line, [])
    | some (key, value) =>
      let u := unquoteValue value
      if encrypting then
        if ¬(IsEncrypted u.1) ∧ u.1 ≠ [] then
          match f u.1 with
          | some e => (some (key ++ '=' :: quoteValue e u.2.1 u.2.2), [u.1])
          | none => (none, [u.1])
        else (some line, [])
      else
        if IsEncrypted u.1 then
          match f u.1 with
          | some d => (some (key ++ '=' :: quoteValue d (needsQuoting d) (some '"')), [u.1])
          | none => (none, [u.1])
        else (some line, [])

/-- The scanner/WriteString loop shared by `ENVParser.EncryptValues` and
`DecryptValues`: process each line, emit `line' ++ "\n"`, abort on error. -/
def envLinesGo (f : List Char → Option (List Char)) (encrypting : Bool) :
    List (List Char) → Option (List Char) × List (List Char)
  | [] => (some [], [])
  | l :: ls =>
    match processLineT f encrypting l with
    | (none, lg) => (none, lg)
    | (some pl, lg) =>
      match envLinesGo f encrypting ls with
      | (none, lg2) => (none, lg ++ lg2)
      | (some rest, lg2) => (some (pl ++ '\n' :: rest), lg ++ lg2)

/-- `ENVParser.EncryptValues` / `DecryptValues` (selected by `encrypting`),
instrumented with the transform-invocation log. -/
def envValuesT (f : List Char → Option (List Char)) (encrypting : Bool)
    (content : List Char) : Option (List Char) × List (List Char) :=
  if ¬validSize content then (none, [])
  else envLinesGo f encrypting (scanLines content)

def envMetaMarker : List Char := "# shhh metadata".data

/-- One `_SHHH_<UPPER_KEY>=<value>` metadata line. -/
def envMetaLine (kv : List Char × List Char) : List Char :=
  shhhEnvKey ++ upperStr kv.1 ++ '=' :: kv.2

/-- `AddENVMetadata`: append `"\n# shhh metadata\n"` and the metadata lines.
The Go map is modelled as an association list (any iteration order). -/
def AddENVMetadata (content : List Char) (meta : List (List Char × List Char)) : List Char :=
  content ++ '\n' :: envMetaMarker ++ '\n' :: (meta.map fun kv => envMetaLine kv ++ ['\n']).flatten

/-- The line filter of `RemoveENVMetadata` (the `inMetadata` state machine). -/
def removeLoop : Bool → List (List Char) → List (List Char)
  | _, [] => []
  | inMeta, l :: rest =>
    if trimSpace l = envMetaMarker then removeLoop true rest
    else if inMeta ∧ isPre shhhEnvKey (trimSpace l) then removeLoop true rest
    else if inMeta ∧ trimSpace l = [] then removeLoop true rest
    else l :: removeLoop false rest

/-- Trailing blank-line trim of `RemoveENVMetadata`. -/
def trimTrailingBlank (ls : List (List Char)) : List (List Char) :=
  (ls.reverse.dropWhile fun l => (trimSpace l).isEmpty).reverse

/-- `RemoveENVMetadata` from env.go. -/
def RemoveENVMetadata (content : List Char) : List Char :=
  joinLines (trimTrailingBlank (removeLoop false (scanLines content)))

/-! ### Value envelope codec (crypto engine, EncryptValue/DecryptValue)

The GPG provider is modelled by its two data paths: `pEnc data recipients`
and `pDec data`, both fallible.  `EncryptValue` refuses an empty recipient
list before ever consulting the provider, then wraps the base64 of the
ciphertext in the `ENC[v1:...]` marker. -/

def EncryptValue (pEnc : List Char → List (List Char) → Option (List Char))
    (recipients : List (List Char)) (plaintext : List Char) : Option (List Char) :=
  if recipients = [] then none
  else
    match pEnc plaintext recipients with
    | none => none
    | some cipher => some (encHead ++ b64EncodeList cipher ++ [']'])

/-- `DecryptValue`: non-markers pass through unchanged; markers are decoded,
base64-decoded and decrypted. -/
def DecryptValue (pDec : List Char → Option (List Char)) (encoded : List Char) :
    Option (List Char) :=
  if ¬IsEncrypted encoded then some encoded
  else
    match DecodeValue encoded with
    | none => none
    | some data =>
      match b64DecodeList data with
      | none => none
      | some decoded => pDec decoded

/-! ### Full-file envelope codec -/

def fullHeaderL : List Char := "-----BEGIN SHHH ENCRYPTED FILE-----".data

def fullFooterL : List Char := "-----END SHHH ENCRYPTED FILE-----".data

/-- The 64-column chunks of the base64 body. -/
def chunks64 (l : List Char) : List (List Char) :=
  if h : l = [] then []
  else
    l.take 64 :: chunks64 (l.drop 64)
termination_by l.length
decreasing_by
  simp only [List.length_drop]
  have : 0 < l.length := List.length_pos.mpr h
  omega

def joinComma : List (List Char) → List Char
  | [] => []
  | [r] => r
  | r :: rs => r ++ ',' :: ' ' :: joinComma rs

/-- The header/metadata/body/footer lines of `encryptFullFile`'s output
(`now` models `time.Now().Format(time.RFC3339)`). -/
def fullFileLines (vault now : List Char) (recipients : List (List Char))
    (encoded : List Char) : List (List Char) :=
  [fullHeaderL, "Version: 1".data, "Vault: ".data ++ vault, "Mode: full".data,
    "Recipients: ".data ++ joinComma recipients,
    "Encrypted-At: ".data ++ now, []] ++ chunks64 encoded ++ [fullFooterL]

/-- `encryptFullFile` from the crypto engine. -/
def encryptFullFile (pEnc : List Char → List (List Char) → Option (List Char))
    (vault now : List Char) (recipients : List (List Char)) (content : List Char) :
    Option (List Char) :=
  match pEnc content recipients with
  | none => none
  | some cipher => some (joinLines (fullFileLines vault now recipients (b64EncodeList cipher)))

/-- The body-collection loop of `decryptFullFile` over `strings.Split` pieces. -/
def collectBody : Bool → List (List Char) → List Char
  | _, [] => []
  | inBody, l :: rest =>
    let t := trimSpace l
    if t = [] ∧ ¬inBody then collectBody true rest
    else if t = fullFooterL then []
    else if inBody ∧ t ≠ [] then t ++ collectBody inBody rest
    else collectBody inBody rest

/-- `decryptFullFile` from the crypto engine. -/
def decryptFullFile (pDec : List Char → Option (List Char)) (content : List Char) :
    Option (List Char) :=
  match b64DecodeList (collectBody false (splitNl content)) with
  | none => none
  | some decoded => pDec decoded

/-! ### EncryptFileContent / DecryptFileContent, specialized to an `.env`
filename.  `EncryptFileContent` dispatches on `opts.Mode` ("full" goes to the
full-file envelope, anything else to the format parser); for a `.env`
filename `GetParserForFile` yields the ENV parser and the metadata codec is
`AddENVMetadata`/`RemoveENVMetadata`.  `DecryptFileContent` dispatches on the
full-file header. -/

def envFileMetadata (vault mode now : List Char) (recipients : List (List Char)) :
    List (List Char × List Char) :=
  [("version".data, "1".data), ("vault".data, vault), ("mode".data, mode),
    ("encrypted_at".data, now), ("recipients".data, joinComma recipients)]

/-- `EncryptFileContent` on an `.env` file. -/
def encryptFileEnv (pEnc : List Char → List (List Char) → Option (List Char))
    (vault mode now : List Char) (recipients : List (List Char)) (content : List Char) :
    Option (List Char) :=
  if mode = "full".data then encryptFullFile pEnc vault now recipients content
  else
    match (envValuesT (EncryptValue pEnc recipients) true content).1 with
    | none => none
    | some encrypted => some (AddENVMetadata encrypted (envFileMetadata vault mode now recipients))

/-- `DecryptFileContent` on an `.env` file. -/
def decryptFileEnv (pDec : List Char → Option (List Char)) (content : List Char) :
    Option (List Char) :=
  if isPre fullHeaderL content then decryptFullFile pDec content
  else
    match (envValuesT (DecryptValue pDec) false content).1 with
    | none => none
    | some decrypted => some (RemoveENVMetadata decrypted)

/-! ### JSON parser (internal/parser/json.go)

The generic value tree produced by `json.Unmarshal` into `interface{}`.
Objects are association lists: Go map iteration order is arbitrary, so the
list order stands for one (arbitrary) iteration order and theorems quantify
over it.  Numbers/booleans/null hit `processValue`'s `default` branch. -/

inductive Json where
  | null : Json
  | bool (b : Bool) : Json
  | num (q : ℚ) : Json
  | str (s : List Char) : Json
  | arr (xs : List Json) : Json
  | obj (kvs : List (List Char × Json)) : Json

def shhhKey : List Char := "_shhh".data

mutual

/-- `JSONParser.processValue`, instrumented with the list of scalars the
transform was invoked on (in invocation order; processing stops at the
first error, exactly like the Go early returns). -/
def jsonProcessT (f : List Char → Option (List Char)) (encrypting : Bool) :
    Nat → Json → Option Json × List (List Char)
  | depth, v =>
    if maxNestingDepth < depth then (none, [])
    else
      match v with
      | .obj kvs =>
        match jsonObjGo f encrypting depth kvs with
        | (none, lg) => (none, lg)
        | (some kvs', lg) => (some (.obj kvs'), lg)
      | .arr xs =>
        match jsonArrGo f encrypting depth xs with
        | (none, lg) => (none, lg)
        | (some xs', lg) => (some (.arr xs'), lg)
      | .str s =>
        if encrypting then
          if ¬(IsEncrypted s) ∧ s ≠ [] then
            match f s with
            | some e => (some (.str e), [s])
            | none => (none, [s])
          else (some (.str s), [])
        else
          if IsEncrypted s then
            match f s with
            | some d => (some (.str d), [s])
            | none => (none, [s])
          else (some (.str s), [])
      | other => (some other, [])

/-- The object loop: `_shhh` entries are copied without recursion. -/
def jsonObjGo (f : List Char → Option (List Char)) (encrypting : Bool) :
    Nat → List (List Char × Json) → Option (List (List Char × Json)) × List (List Char)
  | _, [] => (some [], [])
  | depth, (k, v) :: rest =>
    if k = shhhKey then
      match jsonObjGo f encrypting depth rest with
      | (none, lg) => (none, lg)
      | (some rest', lg) => (some ((k, v) :: rest'), lg)
    else
      match jsonProcessT f encrypting (depth + 1) v with
      | (none, lg) => (none, lg)
      | (some v', lg) =>
        match jsonObjGo f encrypting depth rest with
        | (none, lg2) => (none, lg ++ lg2)
        | (some rest', lg2) => (some ((k, v') :: rest'), lg ++ lg2)

/-- The array loop. -/
def jsonArrGo (f : List Char → Option (List Char)) (encrypting : Bool) :
    Nat → List Json → Option (List Json) × List (List Char)
  | _, [] => (some [], [])
  | depth, v :: rest =>
    match jsonProcessT f encrypting (depth + 1) v with
    | (none, lg) => (none, lg)
    | (some v', lg) =>
      match jsonArrGo f encrypting depth rest with
      | (none, lg2) => (none, lg ++ lg2)
      | (some rest', lg2) => (some (v' :: rest'), lg ++ lg2)

end

mutual

/-- Nesting depth of a JSON tree, not counting subtrees stored under the
reserved `_shhh` key (which `processValue` never enters). -/
def jdepth : Json → Nat
  | .arr xs => 1 + jdepthArr xs
  | .obj kvs => 1 + jdepthObj kvs
  | _ => 1

def jdepthArr : List Json → Nat
  | [] => 0
  | v :: rest => max (jdepth v) (jdepthArr rest)

def jdepthObj : List (List Char × Json) → Nat
  | [] => 0
  | (k, v) :: rest =>
    if k = shhhKey then jdepthObj rest else max (jdepth v) (jdepthObj rest)

end

/-- The `EncryptValues`/`DecryptValues` pipeline of the JSON parser.
`json.Unmarshal` and the indented re-encoding are Go library code outside
this repository, so they enter as parameters `parse` and `ser`; the size
gate, the parse gate and the traversal are the repository's code. -/
def jsonValuesT (parse : List Char → Option Json) (ser : Json → List Char)
    (f : List Char → Option (List Char)) (encrypting : Bool) (content : List Char) :
    Option (List Char) × List (List Char) :=
  if ¬validSize content then (none, [])
  else
    match parse content with
    | none => (none, [])
    | some j =>
      match jsonProcessT f encrypting 0 j with
      | (none, lg) => (none, lg)
      | (some j', lg) => (some (ser j'), lg)

/-! ### INI parser (internal/parser/ini.go)

`ini.Load`/`WriteTo` are library code; the repository's own loop walks the
loaded sections and keys.  An INI document (post-parse) is a list of
sections, each a name with key/value pairs. -/

def shhhSection : List Char := "_shhh".data

/-- The per-section key loop of `INIParser.EncryptValues`/`DecryptValues`:
`_shhh` sections are skipped wholesale. -/
def iniSectionGo (f : List Char → Option (List Char)) (encrypting : Bool)
    (name : List Char) (keys : List (List Char × List Char)) :
    Option (List (List Char × List Char)) × List (List Char) :=
  if name = shhhSection then (some keys, [])
  else
    match keys with
    | [] => (some [], [])
    | (k, v) :: rest =>
      let hit : Bool := if encrypting then !(IsEncrypted v) && !v.isEmpty else IsEncrypted v
      if hit then
        match f v with
        | none => (none, [v])
        | some v' =>
          match iniSectionGo f encrypting name rest with
          | (none, lg) => (none, v :: lg)
          | (some rest', lg) => (some ((k, v') :: rest'), v :: lg)
      else
        match iniSectionGo f encrypting name rest with
        | (none, lg) => (none, lg)
        | (some rest', lg) => (some ((k, v) :: rest'), lg)

/-- The section loop of the INI parser. -/
def iniGo (f : List Char → Option (List Char)) (encrypting : Bool) :
    List (List Char × List (List Char × List Char)) →
    Option (List (List Char × List (List Char × List Char))) × List (List Char)
  | [] => (some [], [])
  | (name, keys) :: rest =>
    match iniSectionGo f encrypting name keys with
    | (none, lg) => (none, lg)
    | (some keys', lg) =>
      match iniGo f encrypting rest with
      | (none, lg2) => (none, lg ++ lg2)
      | (some rest', lg2) => (some ((name, keys') :: rest'), lg ++ lg2)

/-! ### YAML parser (internal/parser/yaml.go)

`yaml.Unmarshal` produces a graph of mutable `*yaml.Node` values: an anchor
makes a node shared, an `AliasNode`'s `Alias` field points at it, and
`processNode` mutates nodes in place through those pointers.  The embedding
therefore passes an explicit node store (a `List YNode` indexed by node id)
in which the `Content` children and the `Alias` pointer are ids, and
`List.set` is the in-place write.  `literalStyle` is `yaml.LiteralStyle`
(the constant 8 of gopkg.in/yaml.v3). -/

inductive YKind where
  | document
  | mapping
  | sequence
  | scalar
  | aliasNode
deriving DecidableEq

structure YNode where
  kind : YKind
  content : List Nat
  value : List Char
  tag : List Char
  style : Nat
  aliasTo : Option Nat
deriving DecidableEq

def literalStyle : Nat := 8

/-- `inferStyle` (yaml.go): literal style for multi-line values. -/
def inferStyle (value : List Char) : Nat :=
  if '\n' ∈ value then literalStyle else 0

/-- The `DocumentNode`/`SequenceNode` child loop, with the recursive
`processNode(child, depth+1)` call passed in as `step`. -/
def yamlListF (step : List YNode → Nat → Option (List YNode) × List (List Char)) :
    List YNode → List Nat → Option (List YNode) × List (List Char)
  | st, [] => (some st, [])
  | st, c :: rest =>
    match step st c with
    | (none, lg) => (none, lg)
    | (some st', lg) =>
      match yamlListF step st' rest with
      | (none, lg2) => (none, lg ++ lg2)
      | (some st'', lg2) => (some st'', lg ++ lg2)

/-- The `MappingNode` pair loop, with the recursive
`processNode(valueNode, depth+1)` call passed in as `step`: a pair whose
key node's `Value` is `_shhh` is skipped.  A trailing odd id (an
out-of-range `Content[i+1]` in Go) or a dangling id is modelled as
failure. -/
def yamlMapF (step : List YNode → Nat → Option (List YNode) × List (List Char)) :
    List YNode → List Nat → Option (List YNode) × List (List Char)
  | st, [] => (some st, [])
  | _, [_] => (none, [])
  | st, k :: v :: rest =>
    match st.get? k with
    | none => (none, [])
    | some kn =>
      if kn.value = shhhKey then yamlMapF step st rest
      else
        match step st v with
        | (none, lg) => (none, lg)
        | (some st', lg) =>
          match yamlMapF step st' rest with
          | (none, lg2) => (none, lg ++ lg2)
          | (some st'', lg2) => (some st'', lg ++ lg2)

/-- `YAMLParser.processNode` on the node store, instrumented with the
transform-invocation log.  The `fuel` argument only makes the recursion
structural: the caller passes `maxNestingDepth + 2` at depth 0 and every
recursive call pairs `fuel - 1` with `depth + 1`, so a call at depth `d` is
reached with `fuel = maxNestingDepth + 2 - d` and the depth guard — checked
first, exactly as in the Go — fires strictly before fuel can reach zero. -/
def yamlProcF (f : List Char → Option (List Char)) (encrypting : Bool) :
    Nat → List YNode → Nat → Nat → Option (List YNode) × List (List Char)
  | fuel, st, i, depth =>
    if maxNestingDepth < depth then (none, [])
    else
      match fuel with
      | 0 => (none, [])
      | fuel' + 1 =>
        match st.get? i with
        | none => (none, [])
        | some n =>
          match n.kind with
          | .document =>
            yamlListF (fun st' c => yamlProcF f encrypting fuel' st' c (depth + 1))
              st n.content
          | .sequence =>
            yamlListF (fun st' c => yamlProcF f encrypting fuel' st' c (depth + 1))
              st n.content
          | .mapping =>
            yamlMapF (fun st' c => yamlProcF f encrypting fuel' st' c (depth + 1))
              st n.content
          | .scalar =>
            if encrypting then
              if ¬(IsEncrypted n.value) ∧ n.value ≠ [] then
                match f n.value with
                | some e =>
                  (some (st.set i { n with
                    value := e,
                    tag := "!!str".data,
                    style := literalStyle }), [n.value])
                | none => (none, [n.value])
              else (some st, [])
            else
              if IsEncrypted n.value then
                match f n.value with
                | some d =>
                  (some (st.set i { n with value := d, style := inferStyle d }),
                    [n.value])
                | none => (none, [n.value])
              else (some st, [])
          | .aliasNode =>
            match n.aliasTo with
            | none => (some st, [])
            | some a => yamlProcF f encrypting fuel' st a (depth + 1)

/-- `processNode(&root, transform, encrypting, 0)` as `EncryptValues` and
`DecryptValues` invoke it. -/
def yamlProcessT (f : List Char → Option (List Char)) (encrypting : Bool)
    (st : List YNode) (root : Nat) : Option (List YNode) × List (List Char) :=
  yamlProcF f encrypting (maxNestingDepth + 2) st root 0

/-- A document without anchors has no `AliasNode`s, and `yaml.Unmarshal`
then produces a tree (sharing arises only through `Alias` pointers); on
disjoint subtrees in-place mutation is functional update, so for such
documents `processNode` is the following function on node trees (the
`AliasNode` case of the Go switch is unreachable).  A mapping key is a full
node whose `Value` the skip test reads; a collection key has `Value ""`. -/
inductive YTree where
  | scalarT (value tag : List Char) (style : Nat) : YTree
  | docT (children : List YTree) : YTree
  | seqT (children : List YTree) : YTree
  | mapT (pairs : List (YTree × YTree)) : YTree

/-- `node.Value`: set for scalars, empty for collection nodes. -/
def yvalue : YTree → List Char
  | .scalarT v _ _ => v
  | _ => []

mutual

/-- `processNode` on alias-free node trees, instrumented with the log. -/
def ytProcess (f : List Char → Option (List Char)) (encrypting : Bool) :
    Nat → YTree → Option YTree × List (List Char)
  | depth, t =>
    if maxNestingDepth < depth then (none, [])
    else
      match t with
      | .docT cs =>
        match ytList f encrypting depth cs with
        | (none, lg) => (none, lg)
        | (some cs', lg) => (some (.docT cs'), lg)
      | .seqT cs =>
        match ytList f encrypting depth cs with
        | (none, lg) => (none, lg)
        | (some cs', lg) => (some (.seqT cs'), lg)
      | .mapT ps =>
        match ytMap f encrypting depth ps with
        | (none, lg) => (none, lg)
        | (some ps', lg) => (some (.mapT ps'), lg)
      | .scalarT v tg sty =>
        if encrypting then
          if ¬(IsEncrypted v) ∧ v ≠ [] then
            match f v with
            | some e => (some (.scalarT e "!!str".data literalStyle), [v])
            | none => (none, [v])
          else (some (.scalarT v tg sty), [])
        else
          if IsEncrypted v then
            match f v with
            | some d => (some (.scalarT d tg (inferStyle d)), [v])
            | none => (none, [v])
          else (some (.scalarT v tg sty), [])

/-- The tree-level `DocumentNode`/`SequenceNode` child loop. -/
def ytList (f : List Char → Option (List Char)) (encrypting : Bool) :
    Nat → List YTree → Option (List YTree) × List (List Char)
  | _, [] => (some [], [])
  | depth, c :: rest =>
    match ytProcess f encrypting (depth + 1) c with
    | (none, lg) => (none, lg)
    | (some c', lg) =>
      match ytList f encrypting depth rest with
      | (none, lg2) => (none, lg ++ lg2)
      | (some rest', lg2) => (some (c' :: rest'), lg ++ lg2)

/-- The tree-level mapping pair loop: a pair whose key's `Value` is `_shhh`
is copied without recursing into its value. -/
def ytMap (f : List Char → Option (List Char)) (encrypting : Bool) :
    Nat → List (YTree × YTree) → Option (List (YTree × YTree)) × List (List Char)
  | _, [] => (some [], [])
  | depth, (k, v) :: rest =>
    if yvalue k = shhhKey then
      match ytMap f encrypting depth rest with
      | (none, lg) => (none, lg)
      | (some rest', lg) => (some ((k, v) :: rest'), lg)
    else
      match ytProcess f encrypting (depth + 1) v with
      | (none, lg) => (none, lg)
      | (some v', lg) =>
        match ytMap f encrypting depth rest with
        | (none, lg2) => (none, lg ++ lg2)
        | (some rest', lg2) => (some ((k, v') :: rest'), lg ++ lg2)

end

/-! ### Format detection (internal/parser/detect.go and the second,
content-sniffing variant of `DetectFormat` elsewhere in the repository) -/

inductive FileFormat where
  | yaml | json | ini | env | unknown
deriving DecidableEq

/-- `filepath.Ext` scan, over the reversed filename: collect until the last
`'.'` (returned with the dot), empty on a `'/'` or the start. -/
def extScan : List Char → List Char → List Char
  | _, [] => []
  | acc, c :: rest =>
    if c = '/' then []
    else if c = '.' then '.' :: acc
    else extScan (c :: acc) rest

/-- Model of `filepath.Ext` (Unix separator). -/
def extOf (filename : List Char) : List Char :=
  extScan [] filename.reverse

/-- `DetectFormat` from internal/parser/detect.go: a pure function of the
lower-cased filename extension. -/
def DetectFormat (filename : List Char) : FileFormat :=
  let ext := lowerStr (extOf filename)
  if ext = ".yaml".data ∨ ext = ".yml".data then .yaml
  else if ext = ".json".data then .json
  else if ext = ".ini".data ∨ ext = ".cfg".data ∨ ext = ".conf".data then .ini
  else if ext = ".env".data then .env
  else .unknown

/-- Model of `bytes.Contains`: contiguous-substring test. -/
def hasSub (needle : List Char) : List Char → Bool
  | [] => needle.isEmpty
  | c :: rest => isPre needle (c :: rest) || hasSub needle rest

/-- `detectByContent` from the repository's second detect file: invoked by
its two-argument `DetectFormat` when the extension is unrecognized. -/
def detectByContent (content0 : List Char) : FileFormat :=
  let content := trimSpace content0
  if content = [] then .unknown
  else if isPre "---".data content then .yaml
  else
    let iniHit :=
      match content with
      | '[' :: _ =>
        let firstLine := trimSpace ((splitNl content).headD [])
        (decide (firstLine.getLast? = some ']') &&
          !(firstLine.contains ',') && !(firstLine.contains '"'))
      | _ => false
    if iniHit then .ini
    else if content.headD ' ' = '{' ∨ content.headD ' ' = '[' then .json
    else
      let sig := (splitNl content).map trimSpace |>.filter fun l => l ≠ [] ∧ ¬isPre ['#'] l
      let hasINISection := sig.any fun l => isPre ['['] l && decide (l.getLast? = some ']')
      let hasYAML := sig.any fun l => hasSub (": ".data) l || decide (l.getLast? = some ':')
      let hasENV := sig.all fun l => l.contains '='
      if hasINISection then .ini
      else if hasENV ∧ ¬hasYAML then .env
      else if hasYAML then .yaml
      else .unknown

/-- The repository's second `DetectFormat(filename, content)`. -/
def DetectFormatSniff (filename content : List Char) : FileFormat :=
  let ext := lowerStr (extOf filename)
  if ext = ".yaml".data ∨ ext = ".yml".data then .yaml
  else if ext = ".json".data then .json
  else if ext = ".ini".data ∨ ext = ".cfg".data ∨ ext = ".conf".data then .ini
  else if ext = ".env".data then .env
  else detectByContent content

/-! ### GPG provider abstraction and Fallback Provider (crypto/provider.go) -/

/-- The sentinel errors of the crypto package.  `errors.Is` against these
sentinels is modelled by constructor equality (`NativeGPG` returns the
sentinels unwrapped on the paths the fallback inspects). -/
inductive GErr where
  | keyNotFound | keyExpired | invalidKey | decryptionFailed | noPrivateKey
  | other (msg : List Char)
deriving DecidableEq

structure KeyInfoM where
  email : List Char
  keyID : List Char
deriving DecidableEq

/-- The `GPGProvider` interface, restricted to the operations the claims
inspect. -/
structure ProviderM where
  lookupKey : List Char → Except GErr KeyInfoM
  importKey : List Char → Except GErr KeyInfoM

/-- `fallbackProvider.LookupKey`: fall back only on `ErrKeyNotFound`. -/
def fbLookupKey (primary fallback : ProviderM) (email : List Char) :
    Except GErr KeyInfoM :=
  match primary.lookupKey email with
  | .ok key => .ok key
  | .error err => if err = .keyNotFound then fallback.lookupKey email else .error err

/-- `fallbackProvider.ImportPublicKey`: fall back on any failure. -/
def fbImportKey (primary fallback : ProviderM) (armored : List Char) :
    Except GErr KeyInfoM :=
  match primary.importKey armored with
  | .ok key => .ok key
  | .error _ => fallback.importKey armored

/-! ### NativeGPG.Encrypt recipient resolution (crypto/native.go)

An openpgp entity is modelled by its identities' emails (a `nil` UserId is
`none`); the keyring is the loaded entity list. -/

structure EntityM where
  identities : List (Option (List Char))
  keyId : Nat

/-- Does one entity carry an identity for this (lower-cased) email? -/
def entityMatches (email : List Char) (ent : EntityM) : Bool :=
  ent.identities.any fun ident =>
    match ident with
    | none => false
    | some m => lowerStr m = email

/-- The inner loop of `NativeGPG.Encrypt`: first matching keyring entity. -/
def resolveRecipient (keyring : List EntityM) (email : List Char) : Option EntityM :=
  keyring.find? (entityMatches (lowerStr email))

/-- The recipient-resolution loop: every email must resolve, else error. -/
def resolveAll (keyring : List EntityM) : List (List Char) → Option (List EntityM)
  | [] => some []
  | email :: rest =>
    match resolveRecipient keyring email with
    | none => none
    | some ent =>
      match resolveAll keyring rest with
      | none => none
      | some ents => some (ent :: ents)

/-- `NativeGPG.Encrypt` up to the point a ciphertext is produced: resolution
must succeed for every recipient and the entity list must be non-empty; the
actual `openpgp.Encrypt` ciphertext is represented by the resolved entity
list together with the plaintext it is computed from. -/
def nativeEncrypt (keyring : List EntityM) (data : List Char)
    (recipients : List (List Char)) : Option (List EntityM × List Char) :=
  match resolveAll keyring recipients with
  | none => none
  | some entities => if entities.isEmpty then none else some (entities, data)

/-! ## Helper lemmas -/

theorem isPre_append_self (p t : List Char) : isPre p (p ++ t) = true := by
  induction p with
  | nil => rfl
  | cons c ps ih => simp [isPre, ih]

theorem isPre_iff {p s : List Char} : isPre p s = true ↔ ∃ t, s = p ++ t := by
  constructor
  · intro h
    induction p generalizing s with
    | nil => exact ⟨s, rfl⟩
    | cons c ps ih =>
      cases s with
      | nil => simp [isPre] at h
      | cons d ss =>
        simp only [isPre, Bool.and_eq_true, decide_eq_true_eq] at h
        obtain ⟨t, ht⟩ := ih h.2
        exact ⟨t, by simp [h.1, ht]⟩
  · rintro ⟨t, rfl⟩
    exact isPre_append_self p t

theorem dropPre_eq_some_iff {p s r : List Char} :
    dropPre p s = some r ↔ s = p ++ r := by
  induction p generalizing s with
  | nil => simp [dropPre]
  | cons c ps ih =>
    cases s with
    | nil => simp [dropPre]
    | cons d ss =>
      by_cases h : c = d
      · subst h
        simp [dropPre, ih]
      · simp [dropPre, h, Ne.symm h]

theorem splitNl_append_cons {l : List Char} (rest : List Char) (h : '\n' ∉ l) :
    splitNl (l ++ '\n' :: rest) = l :: splitNl rest := by
  induction l with
  | nil => simp [splitNl]
  | cons c cs ih =>
    have hc : c ≠ '\n' := fun hc => h (hc ▸ List.mem_cons_self c cs)
    have hcs : '\n' ∉ cs := fun hm => h (List.mem_cons_of_mem c hm)
    simp only [List.cons_append, splitNl, if_neg hc, List.append_eq, ih hcs]

theorem splitNl_joinLines {ls : List (List Char)} (h : ∀ l ∈ ls, '\n' ∉ l) :
    splitNl (joinLines ls) = ls ++ [[]] := by
  induction ls with
  | nil => simp [joinLines, splitNl]
  | cons l ls ih =>
    have h1 : '\n' ∉ l := h l (List.mem_cons_self l ls)
    have h2 : ∀ x ∈ ls, '\n' ∉ x := fun x hx => h x (List.mem_cons_of_mem l hx)
    simp only [joinLines, List.foldr_cons]
    rw [show List.foldr (fun l acc => l ++ '\n' :: acc) [] ls = joinLines ls from rfl,
      splitNl_append_cons _ h1, ih h2, List.cons_append]

theorem dropCR_of_no_cr {l : List Char} (h : '\r' ∉ l) : dropCR l = l := by
  unfold dropCR
  split
  · next r heq =>
    exfalso
    apply h
    have : '\r' ∈ l.reverse := by
      rw [heq]
      exact List.mem_cons_self _ _
    exact List.mem_reverse.mp this
  · rfl

theorem joinLines_ne_nil {l : List Char} {ls : List (List Char)} :
    joinLines (l :: ls) ≠ [] := by
  simp only [joinLines, List.foldr_cons]
  intro h
  have := congrArg List.length h
  simp at this

theorem scanLines_joinLines {ls : List (List Char)}
    (h : ∀ l ∈ ls, '\n' ∉ l ∧ '\r' ∉ l) :
    scanLines (joinLines ls) = ls := by
  cases ls with
  | nil => rfl
  | cons l ls =>
    have hnl : ∀ x ∈ l :: ls, '\n' ∉ x := fun x hx => (h x hx).1
    unfold scanLines
    rw [if_neg joinLines_ne_nil, splitNl_joinLines hnl]
    have hlast : ((l :: ls) ++ [[]]).getLast? = some ([] : List Char) :=
      List.getLast?_concat _
    rw [hlast, List.dropLast_concat]
    calc (l :: ls).map dropCR
        = (l :: ls).map id :=
          List.map_congr_left fun x hx => dropCR_of_no_cr (h x hx).2
      _ = l :: ls := List.map_id _

theorem splitEq_append {k : List Char} (v : List Char) (h : '=' ∉ k) :
    splitEq (k ++ '=' :: v) = some (k, v) := by
  induction k with
  | nil => simp [splitEq]
  | cons c cs ih =>
    have hc : c ≠ '=' := fun hc => h (hc ▸ List.mem_cons_self c cs)
    have hcs : '=' ∉ cs := fun hm => h (List.mem_cons_of_mem c hm)
    simp only [List.cons_append, splitEq, if_neg hc, List.append_eq, ih hcs]

theorem trimL_of_head_nonspace {c : Char} (l : List Char) (h : ¬isSpace c) :
    trimL (c :: l) = c :: l := by
  simp [trimL, List.dropWhile_cons, h]

theorem dropWhile_eq_self_of_all {p : Char → Bool} {l : List Char}
    (h : ∀ c ∈ l, ¬p c) : l.dropWhile p = l := by
  cases l with
  | nil => rfl
  | cons c r => simp [List.dropWhile_cons, h c (List.mem_cons_self c r)]

theorem dropTrailing_of_no_space {l : List Char} (h : ∀ c ∈ l, ¬isSpace c) :
    dropTrailing l = l := by
  unfold dropTrailing
  rw [dropWhile_eq_self_of_all fun c hc => h c (List.mem_reverse.mp hc),
    List.reverse_reverse]

theorem trimSpace_of_no_space {l : List Char} (h : ∀ c ∈ l, ¬isSpace c) :
    trimSpace l = l := by
  unfold trimSpace
  rw [show trimL l = l from dropWhile_eq_self_of_all h, dropTrailing_of_no_space h]

theorem dropTrailing_append {a b : List Char} (h : ∃ c ∈ b, ¬isSpace c) :
    dropTrailing (a ++ b) = a ++ dropTrailing b := by
  unfold dropTrailing
  rw [List.reverse_append]
  obtain ⟨c, hc, hcs⟩ := h
  have : ∃ x ∈ b.reverse, ¬isSpace x := ⟨c, List.mem_reverse.mpr hc, hcs⟩
  rw [List.dropWhile_append]
  have hne : ¬(b.reverse.dropWhile isSpace).isEmpty = true := by
    intro hemp
    rw [List.isEmpty_iff, List.dropWhile_eq_nil_iff] at hemp
    obtain ⟨x, hx, hxs⟩ := this
    exact hxs (hemp x hx)
  rw [if_neg hne, List.reverse_append, List.reverse_reverse]

theorem trimL_append_of_head_nonspace {c : Char} (a b : List Char) (h : ¬isSpace c) :
    trimL ((c :: a) ++ b) = (c :: a) ++ b := by
  simp [trimL, List.dropWhile_cons, h]

theorem dropTrailing_cons_nonspace {c : Char} (l : List Char) (h : ¬isSpace c) :
    dropTrailing (c :: l) = c :: dropTrailing l := by
  unfold dropTrailing
  rw [show (c :: l).reverse = l.reverse ++ [c] from by simp, List.dropWhile_append]
  by_cases hemp : (l.reverse.dropWhile isSpace).isEmpty
  · rw [if_pos hemp]
    rw [List.isEmpty_iff] at hemp
    simp [List.dropWhile_cons, h, hemp]
  · rw [if_neg hemp]
    simp [List.reverse_append]

/-- `trimSpace` of a string starting with a non-space character keeps that
head and only trims the tail. -/
theorem trimSpace_cons_nonspace {c : Char} (l : List Char) (h : ¬isSpace c) :
    trimSpace (c :: l) = c :: dropTrailing l := by
  unfold trimSpace
  rw [trimL_of_head_nonspace l h, dropTrailing_cons_nonspace l h]

theorem trimSpace_eq_nil_iff {l : List Char} :
    trimSpace l = [] ↔ ∀ c ∈ l, isSpace c := by
  induction l with
  | nil => simp [trimSpace, trimL, dropTrailing]
  | cons c l ih =>
    by_cases hc : isSpace c
    · have heq : trimSpace (c :: l) = trimSpace l := by
        unfold trimSpace trimL
        simp [List.dropWhile_cons, hc]
      rw [heq]
      simp only [List.mem_cons]
      constructor
      · intro h x hx
        rcases hx with rfl | hx
        · exact hc
        · exact ih.mp h x hx
      · intro h
        exact ih.mpr fun x hx => h x (Or.inr hx)
    · rw [trimSpace_cons_nonspace l hc]
      constructor
      · intro h
        exact absurd h (List.cons_ne_nil _ _)
      · intro h
        exact absurd (h c (List.mem_cons_self c l)) hc

/-- `trimSpace` of a line with a non-space head character `c` followed by a
tail containing some non-space character drops nothing on the left and stays
inside the tail on the right. -/
theorem trimSpace_append_keep {a b : List Char} (ha : a ≠ [])
    (hhead : ∀ c, a.head? = some c → ¬isSpace c) (hb : ∃ c ∈ b, ¬isSpace c) :
    trimSpace (a ++ b) = a ++ dropTrailing b := by
  cases a with
  | nil => exact absurd rfl ha
  | cons c a =>
    have hc : ¬isSpace c := hhead c rfl
    rw [List.cons_append, trimSpace_cons_nonspace _ hc, dropTrailing_append hb,
      List.cons_append]

/-! ### Marker codec lemmas -/

theorem markerMid_encode {mid : List Char} (hne : mid ≠ [])
    (hall : ∀ c ∈ mid, isEncChar c) :
    markerMid (encHead ++ mid ++ [']']) = some mid := by
  have hdp : dropPre encHead (encHead ++ mid ++ [']']) = some (mid ++ [']']) :=
    dropPre_eq_some_iff.mpr (by rw [List.append_assoc])
  simp only [markerMid, hdp, markerMidAux, List.getLast?_concat, List.dropLast_concat]
  rw [if_pos ⟨trivial, hne, List.all_eq_true.mpr hall⟩]

theorem markerMid_inv {v mid : List Char} (h : markerMid v = some mid) :
    v = encHead ++ mid ++ [']'] ∧ mid ≠ [] ∧ ∀ c ∈ mid, isEncChar c := by
  unfold markerMid at h
  cases hdp : dropPre encHead v with
  | none => rw [hdp] at h; cases h
  | some rest =>
    rw [hdp] at h
    have hv : v = encHead ++ rest := dropPre_eq_some_iff.mp hdp
    replace h : markerMidAux rest = some mid := h
    unfold markerMidAux at h
    by_cases hcond : rest.getLast? = some ']' ∧ rest.dropLast ≠ [] ∧
        rest.dropLast.all isEncChar
    · rw [if_pos hcond] at h
      obtain ⟨hlast, hne, hall⟩ := hcond
      cases h
      have hrne : rest ≠ [] := by
        intro hr
        rw [hr] at hlast
        simp at hlast
      have hrest : rest = rest.dropLast ++ [']'] := by
        have h1 := List.getLast?_eq_getLast rest hrne
        rw [h1] at hlast
        have h2 : rest.getLast hrne = ']' := by injection hlast
        conv_lhs => rw [← List.dropLast_append_getLast hrne]
        rw [h2]
      refine ⟨?_, hne, List.all_eq_true.mp hall⟩
      rw [hv, List.append_assoc]
      exact congrArg _ hrest
    · rw [if_neg hcond] at h
      cases h

theorem IsEncrypted_iff {v : List Char} :
    IsEncrypted v = true ↔
      ∃ mid, v = encHead ++ mid ++ [']'] ∧ mid ≠ [] ∧ ∀ c ∈ mid, isEncChar c := by
  constructor
  · intro h
    rw [IsEncrypted, Option.isSome_iff_exists] at h
    obtain ⟨mid, hmid⟩ := h
    exact ⟨mid, markerMid_inv hmid⟩
  · rintro ⟨mid, rfl, hne, hall⟩
    rw [IsEncrypted, markerMid_encode hne hall]
    rfl

theorem IsEncrypted_encode {mid : List Char} (hne : mid ≠ [])
    (hall : ∀ c ∈ mid, isEncChar c) :
    IsEncrypted (encHead ++ mid ++ [']']) = true := by
  rw [IsEncrypted, markerMid_encode hne hall]
  rfl

theorem DecodeValue_encode {mid : List Char} (hne : mid ≠ [])
    (hall : ∀ c ∈ mid, isEncChar c) :
    DecodeValue (encHead ++ mid ++ [']']) =
      some ((mid.filter fun c => c ≠ '\n').filter fun c => c ≠ ' ') := by
  rw [DecodeValue, markerMid_encode hne hall, Option.map_some']

theorem IsEncrypted_false_of_not_form {v : List Char}
    (h : ¬∃ mid, v = encHead ++ mid ++ [']'] ∧ mid ≠ [] ∧ ∀ c ∈ mid, isEncChar c) :
    IsEncrypted v = false := by
  rw [← Bool.not_eq_true]
  intro hv
  exact h (IsEncrypted_iff.mp hv)

theorem DecodeValue_none_of_not_form {v : List Char}
    (h : ¬∃ mid, v = encHead ++ mid ++ [']'] ∧ mid ≠ [] ∧ ∀ c ∈ mid, isEncChar c) :
    DecodeValue v = none := by
  rw [DecodeValue]
  cases hm : markerMid v with
  | none => rfl
  | some mid => exact absurd ⟨mid, markerMid_inv hm⟩ h

/-! ### base64 lemmas -/

/-- Characters that can appear in base64 output. -/
def isB64Alpha (c : Char) : Bool :=
  (b64Val c).isSome || c = '='

theorem b64Val_b64Char : ∀ n < 64, b64Val (b64Char n) = some n := by decide

theorem b64Char_alpha : ∀ n < 64, isB64Alpha (b64Char n) = true := by decide

theorem b64Char_ne_pad : ∀ n < 64, b64Char n ≠ '=' := by decide

theorem b64Encode_alpha : ∀ (l : List Char), (∀ c ∈ l, c.toNat < 256) →
    ∀ c ∈ b64EncodeList l, isB64Alpha c = true
  | [], _, c, hc => by simp [b64EncodeList] at hc
  | [a], hb, c, hc => by
    have hx : a.toNat < 256 := hb a (by simp)
    simp only [b64EncodeList, List.mem_cons, List.not_mem_nil, or_false] at hc
    rcases hc with rfl | rfl | rfl | rfl
    · exact b64Char_alpha _ (by omega)
    · exact b64Char_alpha _ (by omega)
    · rfl
    · rfl
  | [a, b], hb, c, hc => by
    have hx : a.toNat < 256 := hb a (by simp)
    have hy : b.toNat < 256 := hb b (by simp)
    simp only [b64EncodeList, List.mem_cons, List.not_mem_nil, or_false] at hc
    rcases hc with rfl | rfl | rfl | rfl
    · exact b64Char_alpha _ (by omega)
    · exact b64Char_alpha _ (by omega)
    · exact b64Char_alpha _ (by omega)
    · rfl
  | a :: b :: d :: rest, hb, c, hc => by
    have hx : a.toNat < 256 := hb a (by simp)
    have hy : b.toNat < 256 := hb b (by simp)
    have hz : d.toNat < 256 := hb d (by simp)
    simp only [b64EncodeList, List.mem_cons] at hc
    rcases hc with rfl | rfl | rfl | rfl | hc
    · exact b64Char_alpha _ (by omega)
    · exact b64Char_alpha _ (by omega)
    · exact b64Char_alpha _ (by omega)
    · exact b64Char_alpha _ (by omega)
    · exact b64Encode_alpha rest (fun x hx => hb x (by simp [hx])) c hc

theorem b64_roundtrip : ∀ (l : List Char), (∀ c ∈ l, c.toNat < 256) →
    b64DecodeList (b64EncodeList l) = some l
  | [], _ => rfl
  | [a], hb => by
    have hx : a.toNat < 256 := hb a (by simp)
    have h1 : b64Val (b64Char (a.toNat / 4)) = some (a.toNat / 4) :=
      b64Val_b64Char _ (by omega)
    have h2 : b64Val (b64Char (a.toNat % 4 * 16)) = some (a.toNat % 4 * 16) :=
      b64Val_b64Char _ (by omega)
    simp only [b64EncodeList, b64DecodeList, h1, h2]
    rw [if_pos ⟨trivial, trivial, trivial⟩]
    have harith : a.toNat / 4 * 4 + a.toNat % 4 * 16 / 16 = a.toNat := by omega
    rw [harith, Char.ofNat_toNat]
  | [a, b], hb => by
    have hx : a.toNat < 256 := hb a (by simp)
    have hy : b.toNat < 256 := hb b (by simp)
    have h1 : b64Val (b64Char (a.toNat / 4)) = some (a.toNat / 4) :=
      b64Val_b64Char _ (by omega)
    have h2 : b64Val (b64Char (a.toNat % 4 * 16 + b.toNat / 16)) =
        some (a.toNat % 4 * 16 + b.toNat / 16) := b64Val_b64Char _ (by omega)
    have h3 : b64Val (b64Char (b.toNat % 16 * 4)) = some (b.toNat % 16 * 4) :=
      b64Val_b64Char _ (by omega)
    have hne : b64Char (b.toNat % 16 * 4) ≠ '=' := b64Char_ne_pad _ (by omega)
    simp only [b64EncodeList, b64DecodeList, h1, h2, h3]
    rw [if_neg (by simp [hne]), if_pos ⟨trivial, trivial⟩]
    have e1 : a.toNat / 4 * 4 + (a.toNat % 4 * 16 + b.toNat / 16) / 16 = a.toNat := by
      omega
    have e2 : (a.toNat % 4 * 16 + b.toNat / 16) % 16 * 16 + b.toNat % 16 * 4 / 4 =
        b.toNat := by omega
    rw [e1, e2, Char.ofNat_toNat, Char.ofNat_toNat]
  | a :: b :: d :: rest, hb => by
    have hx : a.toNat < 256 := hb a (by simp)
    have hy : b.toNat < 256 := hb b (by simp)
    have hz : d.toNat < 256 := hb d (by simp)
    have h1 : b64Val (b64Char (a.toNat / 4)) = some (a.toNat / 4) :=
      b64Val_b64Char _ (by omega)
    have h2 : b64Val (b64Char (a.toNat % 4 * 16 + b.toNat / 16)) =
        some (a.toNat % 4 * 16 + b.toNat / 16) := b64Val_b64Char _ (by omega)
    have h3 : b64Val (b64Char (b.toNat % 16 * 4 + d.toNat / 64)) =
        some (b.toNat % 16 * 4 + d.toNat / 64) := b64Val_b64Char _ (by omega)
    have h4 : b64Val (b64Char (d.toNat % 64)) = some (d.toNat % 64) :=
      b64Val_b64Char _ (by omega)
    have hne3 : b64Char (b.toNat % 16 * 4 + d.toNat / 64) ≠ '=' :=
      b64Char_ne_pad _ (by omega)
    have hne4 : b64Char (d.toNat % 64) ≠ '=' := b64Char_ne_pad _ (by omega)
    have ih := b64_roundtrip rest (fun x hxm => hb x (by simp [hxm]))
    simp only [b64EncodeList, b64DecodeList, h1, h2, h3, h4]
    rw [if_neg (by simp [hne3]), if_neg (by simp [hne4]), ih]
    have e1 : a.toNat / 4 * 4 + (a.toNat % 4 * 16 + b.toNat / 16) / 16 = a.toNat := by
      omega
    have e2 : (a.toNat % 4 * 16 + b.toNat / 16) % 16 * 16 +
        (b.toNat % 16 * 4 + d.toNat / 64) / 4 = b.toNat := by omega
    have e3 : (b.toNat % 16 * 4 + d.toNat / 64) % 4 * 64 + d.toNat % 64 = d.toNat := by
      omega
    rw [e1, e2, e3, Char.ofNat_toNat, Char.ofNat_toNat, Char.ofNat_toNat]

/-! ### Character-set facts about markers -/

/-- All 65 characters base64 output can consist of. -/
def b64Charset : List Char :=
  (List.range 64).map b64Char ++ ['=']

theorem b64Encode_mem_charset : ∀ (l : List Char), (∀ c ∈ l, c.toNat < 256) →
    ∀ c ∈ b64EncodeList l, c ∈ b64Charset
  | [], _, c, hc => by simp [b64EncodeList] at hc
  | [a], hb, c, hc => by
    have hx : a.toNat < 256 := hb a (by simp)
    simp only [b64EncodeList, List.mem_cons, List.not_mem_nil, or_false] at hc
    rcases hc with rfl | rfl | rfl | rfl
    · exact List.mem_append_left _ (List.mem_map.mpr ⟨_, List.mem_range.mpr (by omega), rfl⟩)
    · exact List.mem_append_left _ (List.mem_map.mpr ⟨_, List.mem_range.mpr (by omega), rfl⟩)
    · simp [b64Charset]
    · simp [b64Charset]
  | [a, b], hb, c, hc => by
    have hx : a.toNat < 256 := hb a (by simp)
    have hy : b.toNat < 256 := hb b (by simp)
    simp only [b64EncodeList, List.mem_cons, List.not_mem_nil, or_false] at hc
    rcases hc with rfl | rfl | rfl | rfl
    · exact List.mem_append_left _ (List.mem_map.mpr ⟨_, List.mem_range.mpr (by omega), rfl⟩)
    · exact List.mem_append_left _ (List.mem_map.mpr ⟨_, List.mem_range.mpr (by omega), rfl⟩)
    · exact List.mem_append_left _ (List.mem_map.mpr ⟨_, List.mem_range.mpr (by omega), rfl⟩)
    · simp [b64Charset]
  | a :: b :: d :: rest, hb, c, hc => by
    have hx : a.toNat < 256 := hb a (by simp)
    have hy : b.toNat < 256 := hb b (by simp)
    have hz : d.toNat < 256 := hb d (by simp)
    simp only [b64EncodeList, List.mem_cons] at hc
    rcases hc with rfl | rfl | rfl | rfl | hc
    · exact List.mem_append_left _ (List.mem_map.mpr ⟨_, List.mem_range.mpr (by omega), rfl⟩)
    · exact List.mem_append_left _ (List.mem_map.mpr ⟨_, List.mem_range.mpr (by omega), rfl⟩)
    · exact List.mem_append_left _ (List.mem_map.mpr ⟨_, List.mem_range.mpr (by omega), rfl⟩)
    · exact List.mem_append_left _ (List.mem_map.mpr ⟨_, List.mem_range.mpr (by omega), rfl⟩)
    · exact b64Encode_mem_charset rest (fun x hxm => hb x (by simp [hxm])) c hc

theorem charset_safe :
    ∀ c ∈ b64Charset, ¬isSpace c ∧ quoteUnsafe c = false ∧ isEncChar c = true ∧
      c ≠ '-' := by decide

theorem encHead_safe :
    ∀ c ∈ encHead, ¬isSpace c ∧ quoteUnsafe c = false := by decide

/-- Every character of a marker `ENC[v1:<base64>]` is non-space and safe for
the ENV quoting rules. -/
theorem marker_chars_safe {cipher : List Char} (hb : ∀ c ∈ cipher, c.toNat < 256) :
    ∀ c ∈ encHead ++ b64EncodeList cipher ++ [']'],
      ¬isSpace c ∧ quoteUnsafe c = false := by
  intro c hc
  rcases List.mem_append.mp hc with hc1 | hc2
  · rcases List.mem_append.mp hc1 with hh | hm
    · exact encHead_safe c hh
    · have := charset_safe c (b64Encode_mem_charset cipher hb c hm)
      exact ⟨this.1, this.2.1⟩
  · have : c = ']' := by simpa using hc2
    subst this
    refine ⟨by decide, by decide⟩

theorem b64Encode_ne_nil : ∀ {l : List Char}, l ≠ [] → b64EncodeList l ≠ []
  | [], h => absurd rfl h
  | [_], _ => by simp [b64EncodeList]
  | [_, _], _ => by simp [b64EncodeList]
  | _ :: _ :: _ :: _, _ => by simp [b64EncodeList]

theorem b64Encode_all_encChar {l : List Char} (hb : ∀ c ∈ l, c.toNat < 256) :
    ∀ c ∈ b64EncodeList l, isEncChar c = true := fun c hc =>
  (charset_safe c (b64Encode_mem_charset l hb c hc)).2.2.1

/-! ### Value-level round trip -/

/-- The marker produced for a given provider ciphertext. -/
def markerOf (cipher : List Char) : List Char :=
  encHead ++ b64EncodeList cipher ++ [']']

theorem markerOf_chars_safe {cipher : List Char} (hb : ∀ c ∈ cipher, c.toNat < 256) :
    ∀ c ∈ markerOf cipher, ¬isSpace c ∧ quoteUnsafe c = false :=
  marker_chars_safe hb

theorem markerOf_ne_nil (cipher : List Char) : markerOf cipher ≠ [] := by
  unfold markerOf encHead
  simp

theorem EncryptValue_eq_marker {pEnc : List Char → List (List Char) → Option (List Char)}
    {recips : List (List Char)} {pt cipher : List Char} (hrec : recips ≠ [])
    (hc : pEnc pt recips = some cipher) :
    EncryptValue pEnc recips pt = some (markerOf cipher) := by
  unfold EncryptValue markerOf
  rw [if_neg hrec, hc]

theorem IsEncrypted_markerOf {cipher : List Char} (hcne : cipher ≠ [])
    (hb : ∀ c ∈ cipher, c.toNat < 256) :
    IsEncrypted (markerOf cipher) = true :=
  IsEncrypted_encode (b64Encode_ne_nil hcne) (b64Encode_all_encChar hb)

theorem DecryptValue_markerOf {pDec : List Char → Option (List Char)}
    {pt cipher : List Char} (hcne : cipher ≠ []) (hb : ∀ c ∈ cipher, c.toNat < 256)
    (hinv : pDec cipher = some pt) :
    DecryptValue pDec (markerOf cipher) = some pt := by
  have henc := IsEncrypted_markerOf hcne hb
  have hsafe := marker_chars_safe hb
  unfold DecryptValue
  rw [markerOf] at henc ⊢
  rw [if_neg (by rw [henc]; simp)]
  rw [DecodeValue_encode (b64Encode_ne_nil hcne) (b64Encode_all_encChar hb)]
  have hf1 : (b64EncodeList cipher).filter (fun c => c ≠ '\n') = b64EncodeList cipher := by
    apply List.filter_eq_self.mpr
    intro c hcm
    have := (hsafe c (by simp [hcm])).1
    simp only [isSpace, Bool.or_eq_true, decide_eq_true_eq] at this
    simp only [ne_eq, decide_eq_true_eq]
    tauto
  have hf2 : (b64EncodeList cipher).filter (fun c => c ≠ ' ') = b64EncodeList cipher := by
    apply List.filter_eq_self.mpr
    intro c hcm
    have := (hsafe c (by simp [hcm])).1
    simp only [isSpace, Bool.or_eq_true, decide_eq_true_eq] at this
    simp only [ne_eq, decide_eq_true_eq]
    tauto
  rw [hf1, hf2]
  show (match b64DecodeList (b64EncodeList cipher) with
    | none => none
    | some decoded => pDec decoded) = some pt
  rw [b64_roundtrip cipher hb]
  exact hinv

/-! ### ENV line analysis -/

/-- A prefix test cannot see past a separator character that the pattern
itself does not contain. -/
theorem isPre_indep {p : List Char} {sep : Char} (hp : sep ∉ p) :
    ∀ (a x y : List Char), isPre p (a ++ sep :: x) = isPre p (a ++ sep :: y) := by
  intro a
  induction p generalizing a with
  | nil => intro x y; rfl
  | cons c ps ih =>
    intro x y
    have hc : c ≠ sep := fun h => hp (h ▸ List.mem_cons_self c ps)
    have hps : sep ∉ ps := fun h => hp (List.mem_cons_of_mem c h)
    cases a with
    | nil =>
      simp only [List.nil_append, isPre, decide_eq_true_eq]
      rw [Bool.and_eq_false_iff.mpr, Bool.and_eq_false_iff.mpr] <;>
        exact Or.inl (by simpa using hc)
    | cons d as =>
      simp only [List.cons_append, isPre, List.append_eq]
      rw [ih hps as x y]

/-- Decomposition of `trimSpace` on a `key=value` line. -/
theorem trimSpace_line_decomp (key w : List Char) :
    trimSpace (key ++ '=' :: w) = trimL key ++ '=' :: dropTrailing w := by
  unfold trimSpace
  have h1 : trimL (key ++ '=' :: w) = trimL key ++ '=' :: w := by
    unfold trimL
    rw [List.dropWhile_append]
    by_cases hemp : (key.dropWhile isSpace).isEmpty
    · rw [if_pos hemp, List.isEmpty_iff.mp hemp, List.nil_append,
        List.dropWhile_cons, if_neg (by decide)]
    · rw [if_neg hemp]
  rw [h1]
  have h2 : dropTrailing (trimL key ++ '=' :: w) = trimL key ++ dropTrailing ('=' :: w) :=
    dropTrailing_append ⟨'=', List.mem_cons_self _ _, by decide⟩
  rw [h2, dropTrailing_cons_nonspace w (by decide)]

/-- The body of `processLineT`'s first three pass-through checks. -/
def passLine (l : List Char) : Prop :=
  trimSpace l = [] ∨ isPre ['#'] (trimSpace l) = true ∨
    isPre shhhEnvKey (trimSpace l) = true ∨ splitEq l = none

/-- Canonicality of the key part of a `key=value` line: no `'='`, and the
line is not mistakable for a comment, a metadata line, or the full-file
header. -/
def keyOK (key : List Char) : Prop :=
  '=' ∉ key ∧ isPre ['#'] (trimL key ++ ['=']) = false ∧
    isPre shhhEnvKey (trimL key ++ ['=']) = false ∧
    isPre fullHeaderL (key ++ ['=']) = false

/-- Canonicality of a raw ENV value: no whitespace anywhere, no characters
that force quoting, not already a marker. -/
def plainValue (w : List Char) : Prop :=
  (∀ c ∈ w, ¬isSpace c) ∧ needsQuoting w = false ∧ IsEncrypted w = false

theorem needsQuoting_of_safe {w : List Char} (hw : ∀ c ∈ w, quoteUnsafe c = false)
    (hne : w ≠ []) : needsQuoting w = false := by
  unfold needsQuoting
  rw [Bool.or_eq_false_iff]
  refine ⟨by simpa using hne, ?_⟩
  rw [List.any_eq_false]
  intro c hc
  simp [hw c hc]

theorem unquote_of_trim_nil {w : List Char} (h : trimSpace w = []) :
    unquoteValue w = ([], false, none) := by
  unfold unquoteValue
  rw [h]

theorem quoteUnsafe_false_ne {c : Char} (h : quoteUnsafe c = false) :
    c ≠ '"' ∧ c ≠ '\'' ∧ c ≠ ' ' ∧ c ≠ '\t' ∧ c ≠ '\n' ∧ c ≠ '#' ∧ c ≠ '$' ∧
      c ≠ '\\' := by
  unfold quoteUnsafe at h
  simp only [Bool.or_eq_false_iff, decide_eq_false_iff_not] at h
  tauto

theorem unquote_plain {w : List Char} (hsp : ∀ c ∈ w, ¬isSpace c)
    (hq : ∀ c ∈ w, quoteUnsafe c = false) (hne : w ≠ []) :
    unquoteValue w = (w, false, none) := by
  unfold unquoteValue
  rw [trimSpace_of_no_space hsp]
  cases w with
  | nil => exact absurd rfl hne
  | cons c rest =>
    have hcq : quoteUnsafe c = false := hq c (List.mem_cons_self _ _)
    have hc1 : c ≠ '"' := (quoteUnsafe_false_ne hcq).1
    have hc2 : c ≠ '\'' := (quoteUnsafe_false_ne hcq).2.1
    cases hrev : rest.reverse with
    | nil => simp only [hrev]
    | cons d midR =>
      simp only [hrev]
      rw [if_neg (by simp [hc1, hc2])]

theorem quoteUnsafe_of_plain {w : List Char} (h : plainValue w) :
    ∀ c ∈ w, quoteUnsafe c = false := by
  intro c hc
  have := h.2.1
  unfold needsQuoting at this
  rw [Bool.or_eq_false_iff] at this
  exact Bool.not_eq_true _ ▸ (List.any_eq_false.mp this.2 c hc)

theorem plainValue_ne_nil {w : List Char} (h : plainValue w) : w ≠ [] := by
  intro hw
  have := h.2.1
  rw [hw] at this
  simp [needsQuoting] at this

theorem processLineT_pass {l : List Char} (h : passLine l)
    (f : List Char → Option (List Char)) (enc : Bool) :
    processLineT f enc l = (some l, []) := by
  unfold processLineT
  by_cases h1 : ((trimSpace l).isEmpty || isPre ['#'] (trimSpace l)) = true
  · rw [if_pos h1]
  · rw [if_neg h1]
    by_cases h2 : isPre shhhEnvKey (trimSpace l) = true
    · rw [if_pos h2]
    · rw [if_neg h2]
      have hs : splitEq l = none := by
        rw [Bool.not_eq_true, Bool.or_eq_false_iff] at h1
        rcases h with hp | hp | hp | hp
        · rw [hp] at h1
          simp at h1
        · exact absurd hp (by simp [h1.2])
        · exact absurd hp h2
        · exact hp
      rw [hs]

theorem trimmed_line_nonempty (key w : List Char) :
    (trimSpace (key ++ '=' :: w)).isEmpty = false := by
  rw [trimSpace_line_decomp]
  cases h : trimL key <;> simp

theorem trimmed_line_hash {key : List Char} (w : List Char)
    (hk : isPre ['#'] (trimL key ++ ['=']) = false) :
    isPre ['#'] (trimSpace (key ++ '=' :: w)) = false := by
  rw [trimSpace_line_decomp,
    isPre_indep (p := ['#']) (by decide) (trimL key) (dropTrailing w) []]
  exact hk

theorem trimmed_line_shhh {key : List Char} (w : List Char)
    (hk : isPre shhhEnvKey (trimL key ++ ['=']) = false) :
    isPre shhhEnvKey (trimSpace (key ++ '=' :: w)) = false := by
  rw [trimSpace_line_decomp,
    isPre_indep (p := shhhEnvKey) (by decide) (trimL key) (dropTrailing w) []]
  exact hk

/-- On a canonical `key=value` line, `processLineT` reaches the value
analysis with exactly `(key, w)`. -/
theorem processLineT_keyval {key w : List Char} (hk : keyOK key)
    (f : List Char → Option (List Char)) (enc : Bool) :
    processLineT f enc (key ++ '=' :: w) =
      (let u := unquoteValue w
       if enc then
        if ¬(IsEncrypted u.1) ∧ u.1 ≠ [] then
          match f u.1 with
          | some e => (some (key ++ '=' :: quoteValue e u.2.1 u.2.2), [u.1])
          | none => (none, [u.1])
        else (some (key ++ '=' :: w), [])
       else
        if IsEncrypted u.1 then
          match f u.1 with
          | some d => (some (key ++ '=' :: quoteValue d (needsQuoting d) (some '"')), [u.1])
          | none => (none, [u.1])
        else (some (key ++ '=' :: w), [])) := by
  unfold processLineT
  rw [if_neg (by rw [trimmed_line_nonempty key w, trimmed_line_hash w hk.2.1]; simp),
    if_neg (by rw [trimmed_line_shhh w hk.2.2.1]; simp),
    splitEq_append w hk.1]

theorem processLineT_keyval_trimnil {key w : List Char} (hk : keyOK key)
    (hw : trimSpace w = []) (f : List Char → Option (List Char)) (enc : Bool) :
    processLineT f enc (key ++ '=' :: w) = (some (key ++ '=' :: w), []) := by
  rw [processLineT_keyval hk f enc]
  rw [unquote_of_trim_nil hw]
  cases enc with
  | true =>
    simp only [if_true]
    rw [if_neg (by simp)]
  | false =>
    simp only [Bool.false_eq_true, if_false]
    rw [if_neg (by simp [IsEncrypted, markerMid, dropPre])]

theorem processLineT_encrypt_plain {pEnc : List Char → List (List Char) → Option (List Char)}
    {recips : List (List Char)} {key w cipher : List Char}
    (hrec : recips ≠ []) (hk : keyOK key) (hw : plainValue w)
    (hc : pEnc w recips = some cipher) (hb : ∀ c ∈ cipher, c.toNat < 256) :
    processLineT (EncryptValue pEnc recips) true (key ++ '=' :: w) =
      (some (key ++ '=' :: markerOf cipher), [w]) := by
  rw [processLineT_keyval hk _ true]
  rw [unquote_plain hw.1 (quoteUnsafe_of_plain hw) (plainValue_ne_nil hw)]
  simp only [if_true]
  rw [if_pos ⟨by simp [hw.2.2], plainValue_ne_nil hw⟩,
    EncryptValue_eq_marker hrec hc]
  have hq : quoteValue (markerOf cipher) false none = markerOf cipher := by
    unfold quoteValue
    rw [if_pos]
    constructor
    · simp
    · rw [needsQuoting_of_safe (fun c hcm => (markerOf_chars_safe hb c hcm).2)
        (markerOf_ne_nil cipher)]
      simp
  show (some (key ++ '=' :: quoteValue (markerOf cipher) false none), [w]) =
    (some (key ++ '=' :: markerOf cipher), ([w] : List (List Char)))
  rw [hq]

theorem processLineT_decrypt_marker {pDec : List Char → Option (List Char)}
    {key w cipher : List Char} (hk : keyOK key) (hw : plainValue w)
    (hcne : cipher ≠ []) (hb : ∀ c ∈ cipher, c.toNat < 256)
    (hinv : pDec cipher = some w) :
    processLineT (DecryptValue pDec) false (key ++ '=' :: markerOf cipher) =
      (some (key ++ '=' :: w), [markerOf cipher]) := by
  rw [processLineT_keyval hk _ false]
  have hmarker_sp : ∀ c ∈ markerOf cipher, ¬isSpace c :=
    fun c hcm => (markerOf_chars_safe hb c hcm).1
  have hmarker_q : ∀ c ∈ markerOf cipher, quoteUnsafe c = false :=
    fun c hcm => (markerOf_chars_safe hb c hcm).2
  rw [unquote_plain hmarker_sp hmarker_q (markerOf_ne_nil cipher)]
  simp only [Bool.false_eq_true, if_false]
  rw [if_pos (IsEncrypted_markerOf hcne hb), DecryptValue_markerOf hcne hb hinv]
  have hq : quoteValue w (needsQuoting w) (some '"') = w := by
    unfold quoteValue
    rw [if_pos ⟨by simp [hw.2.1], by simp [hw.2.1]⟩]
  show (some (key ++ '=' :: quoteValue w (needsQuoting w) (some '"')), [markerOf cipher]) =
    (some (key ++ '=' :: w), [markerOf cipher])
  rw [hq]

/-! ### ENV document-level round trip -/

/-- A canonical ENV source line: newline/CR free, not the metadata marker,
not the full-file header, and either a pure pass-through line or a
`key=value` line with a canonical key and an empty or plain value. -/
def lineOK (l : List Char) : Prop :=
  '\n' ∉ l ∧ '\r' ∉ l ∧ trimSpace l ≠ envMetaMarker ∧
    isPre fullHeaderL (l ++ ['\n']) = false ∧
    (passLine l ∨ ∃ key w, l = key ++ '=' :: w ∧ keyOK key ∧
      (trimSpace w = [] ∨ (plainValue w ∧ ∀ c ∈ w, c.toNat < 256)))

/-- The conditions an encrypted line must satisfy for the decrypt pass and
the metadata strip to work. -/
def lineOKout (l : List Char) : Prop :=
  '\n' ∉ l ∧ '\r' ∉ l ∧ trimSpace l ≠ envMetaMarker ∧
    isPre fullHeaderL (l ++ ['\n']) = false

theorem joinLines_append (a b : List (List Char)) :
    joinLines (a ++ b) = joinLines a ++ joinLines b := by
  induction a with
  | nil => rfl
  | cons l ls ih =>
    simp only [List.cons_append, joinLines, List.foldr_cons] at ih ⊢
    rw [ih]
    simp

theorem envLinesGo_cons_some {f : List Char → Option (List Char)} {e : Bool}
    {l pl : List Char} {lg : List (List Char)} {ls : List (List Char)} {rest : List Char}
    (h1 : processLineT f e l = (some pl, lg)) (h2 : (envLinesGo f e ls).1 = some rest) :
    (envLinesGo f e (l :: ls)).1 = some (pl ++ '\n' :: rest) := by
  unfold envLinesGo
  rw [h1]
  cases hgo : envLinesGo f e ls with
  | mk a b =>
    rw [hgo] at h2
    simp only at h2
    subst h2
    simp only

/-- The trimmed form of an encrypted `key=value` line is never `'#'`-headed
when the key is canonical. -/
theorem trimmed_keyval_ne_marker {key : List Char} (w : List Char) (hk : keyOK key) :
    trimSpace (key ++ '=' :: w) ≠ envMetaMarker := by
  rw [trimSpace_line_decomp]
  intro h
  have hhash := hk.2.1
  cases htl : trimL key with
  | nil =>
    rw [htl, List.nil_append] at h
    have : '=' = '#' := by
      have := congrArg (List.head? ·) h
      simpa [envMetaMarker] using this
    cases this
  | cons c cs =>
    rw [htl] at h
    have hc : c = '#' := by
      have := congrArg (List.head? ·) h
      simpa [envMetaMarker] using this
    rw [htl, hc] at hhash
    simp [isPre] at hhash

theorem header_not_pre_keyval {key : List Char} (w : List Char) (hk : keyOK key) :
    isPre fullHeaderL ((key ++ '=' :: w) ++ ['\n']) = false := by
  have h1 : (key ++ '=' :: w) ++ ['\n'] = key ++ '=' :: (w ++ ['\n']) := by simp
  rw [h1, isPre_indep (p := fullHeaderL) (by decide) key (w ++ ['\n']) []]
  exact hk.2.2.2

/-- Each source line of a canonical ENV document encrypts to a line that
decrypts back to it; the encrypted line also satisfies `lineOKout`. -/
theorem env_line_roundtrip {pEnc : List Char → List (List Char) → Option (List Char)}
    {pDec : List Char → Option (List Char)} {recips : List (List Char)}
    (hrec : recips ≠ [])
    (hprov : ∀ v, (∀ ch ∈ v, ch.toNat < 256) → ∃ c, pEnc v recips = some c ∧ c ≠ [] ∧
      (∀ ch ∈ c, ch.toNat < 256) ∧ pDec c = some v)
    {l : List Char} (hok : lineOK l) :
    ∃ l' lg lg', processLineT (EncryptValue pEnc recips) true l = (some l', lg) ∧
      processLineT (DecryptValue pDec) false l' = (some l, lg') ∧ lineOKout l' := by
  obtain ⟨hnl, hcr, hmk, hhd, hcase⟩ := hok
  rcases hcase with hp | ⟨key, w, rfl, hkey, hval⟩
  · exact ⟨l, [], [], processLineT_pass hp _ _, processLineT_pass hp _ _,
      hnl, hcr, hmk, hhd⟩
  · rcases hval with hw | hw
    · refine ⟨key ++ '=' :: w, [], [], processLineT_keyval_trimnil hkey hw _ _,
        processLineT_keyval_trimnil hkey hw _ _, hnl, hcr, hmk, hhd⟩
    · obtain ⟨cipher, hc, hcne, hb, hinv⟩ := hprov w hw.2
      have hmnl : '\n' ∉ markerOf cipher := fun hmem =>
        (markerOf_chars_safe hb _ hmem).1 (by decide)
      have hmcr : '\r' ∉ markerOf cipher := fun hmem =>
        (markerOf_chars_safe hb _ hmem).1 (by decide)
      refine ⟨key ++ '=' :: markerOf cipher, [w], [markerOf cipher],
        processLineT_encrypt_plain hrec hkey hw.1 hc hb,
        processLineT_decrypt_marker hkey hw.1 hcne hb hinv, ?_, ?_, ?_, ?_⟩
      · intro hmem
        rcases List.mem_append.mp hmem with h1 | h2
        · exact hnl (List.mem_append.mpr (Or.inl h1))
        · rcases List.mem_cons.mp h2 with h3 | h4
          · exact absurd h3 (by decide)
          · exact hmnl h4
      · intro hmem
        rcases List.mem_append.mp hmem with h1 | h2
        · exact hcr (List.mem_append.mpr (Or.inl h1))
        · rcases List.mem_cons.mp h2 with h3 | h4
          · exact absurd h3 (by decide)
          · exact hmcr h4
      · exact trimmed_keyval_ne_marker _ hkey
      · exact header_not_pre_keyval _ hkey

theorem env_lines_roundtrip_list {pEnc : List Char → List (List Char) → Option (List Char)}
    {pDec : List Char → Option (List Char)} {recips : List (List Char)}
    (hrec : recips ≠ [])
    (hprov : ∀ v, (∀ ch ∈ v, ch.toNat < 256) → ∃ c, pEnc v recips = some c ∧ c ≠ [] ∧
      (∀ ch ∈ c, ch.toNat < 256) ∧ pDec c = some v)
    (ls : List (List Char)) :
    (∀ l ∈ ls, lineOK l) →
    ∃ ls', (envLinesGo (EncryptValue pEnc recips) true ls).1 = some (joinLines ls') ∧
      (envLinesGo (DecryptValue pDec) false ls').1 = some (joinLines ls) ∧
      ls'.length = ls.length ∧ (∀ l' ∈ ls', lineOKout l') := by
  induction ls with
  | nil => exact fun _ => ⟨[], rfl, rfl, rfl, by simp⟩
  | cons l ls ih =>
    intro hok
    obtain ⟨ls', h1, h2, hlen, h3⟩ := ih fun x hx => hok x (List.mem_cons_of_mem _ hx)
    obtain ⟨l', lg, lg', hl1, hl2, hl3⟩ :=
      env_line_roundtrip hrec hprov (hok l (List.mem_cons_self _ _))
    refine ⟨l' :: ls', envLinesGo_cons_some hl1 h1, envLinesGo_cons_some hl2 h2,
      by simp [hlen], ?_⟩
    intro x hx
    rcases List.mem_cons.mp hx with rfl | hx2
    · exact hl3
    · exact h3 x hx2

theorem envLinesGo_append_some {f : List Char → Option (List Char)} {e : Bool}
    {xs ys : List (List Char)} {cx cy : List Char}
    (hx : (envLinesGo f e xs).1 = some cx) (hy : (envLinesGo f e ys).1 = some cy) :
    (envLinesGo f e (xs ++ ys)).1 = some (cx ++ cy) := by
  induction xs generalizing cx with
  | nil =>
    replace hx : some [] = some cx := hx
    cases hx
    simpa using hy
  | cons l ls ih =>
    unfold envLinesGo at hx ⊢
    cases hpl : processLineT f e l with
    | mk a lg =>
      rw [hpl] at hx
      cases a with
      | none => simp at hx
      | some pl =>
        simp only at hx ⊢
        cases hgo : envLinesGo f e ls with
        | mk b lg2 =>
          rw [hgo] at hx
          cases b with
          | none => simp at hx
          | some rest =>
            simp only at hx
            have hxr : cx = pl ++ '\n' :: rest := by
              cases hx
              rfl
            have := ih (show (envLinesGo f e ls).1 = some rest from by rw [hgo])
            cases hgo2 : envLinesGo f e (ls ++ ys) with
            | mk b2 lg3 =>
              rw [hgo2] at this
              cases b2 with
              | none => simp at this
              | some rest2 =>
                simp only at this ⊢
                cases this
                subst hxr
                show (match processLineT f e l with
                  | (none, lg) => (none, lg)
                  | (some pl, lg) =>
                    match envLinesGo f e (ls ++ ys) with
                    | (none, lg2) => (none, lg ++ lg2)
                    | (some rest, lg2) => (some (pl ++ '\n' :: rest), lg ++ lg2)).1 =
                  some ((pl ++ '\n' :: rest) ++ cy)
                rw [hpl, hgo2]
                simp

theorem passLine_nil : passLine ([] : List Char) :=
  Or.inl rfl

theorem passLine_metaMarker : passLine envMetaMarker := by
  right
  left
  decide

theorem passLine_metaLine (kv : List Char × List Char) : passLine (envMetaLine kv) := by
  right
  right
  left
  unfold envMetaLine
  have hcons : shhhEnvKey ++ upperStr kv.1 = '_' :: ("SHHH_".data ++ upperStr kv.1) := rfl
  rw [trimSpace_line_decomp, hcons, trimL_of_head_nonspace _ (by decide), ← hcons,
    List.append_assoc]
  exact isPre_append_self _ _

/-! ### Metadata attach/strip lemmas -/

theorem trimmed_metaLine {kv : List Char × List Char} :
    trimSpace (envMetaLine kv) =
      (shhhEnvKey ++ upperStr kv.1) ++ '=' :: dropTrailing kv.2 := by
  unfold envMetaLine
  have hcons : shhhEnvKey ++ upperStr kv.1 = '_' :: ("SHHH_".data ++ upperStr kv.1) := rfl
  rw [trimSpace_line_decomp, hcons, trimL_of_head_nonspace _ (by decide), ← hcons]

theorem trimmed_metaLine_ne_marker (kv : List Char × List Char) :
    trimSpace (envMetaLine kv) ≠ envMetaMarker := by
  rw [trimmed_metaLine]
  intro h
  have := congrArg (List.head? ·) h
  simp [shhhEnvKey, envMetaMarker] at this

theorem trimmed_metaLine_shhh (kv : List Char × List Char) :
    isPre shhhEnvKey (trimSpace (envMetaLine kv)) = true := by
  rw [trimmed_metaLine, List.append_assoc]
  exact isPre_append_self _ _

theorem removeLoop_cons (inMeta : Bool) (l : List Char) (rest : List (List Char)) :
    removeLoop inMeta (l :: rest) =
      if trimSpace l = envMetaMarker then removeLoop true rest
      else if inMeta ∧ isPre shhhEnvKey (trimSpace l) then removeLoop true rest
      else if inMeta ∧ trimSpace l = [] then removeLoop true rest
      else l :: removeLoop false rest := rfl

theorem removeLoop_keep {ls : List (List Char)}
    (h : ∀ l ∈ ls, trimSpace l ≠ envMetaMarker) (tail : List (List Char)) :
    removeLoop false (ls ++ tail) = ls ++ removeLoop false tail := by
  induction ls with
  | nil => rfl
  | cons l ls ih =>
    rw [List.cons_append, removeLoop_cons,
      if_neg (h l (List.mem_cons_self _ _)), if_neg (by simp), if_neg (by simp),
      ih fun x hx => h x (List.mem_cons_of_mem _ hx), List.cons_append]

theorem removeLoop_true_shhh {metas : List (List Char)}
    (h : ∀ m ∈ metas, isPre shhhEnvKey (trimSpace m) = true ∧
      trimSpace m ≠ envMetaMarker) :
    removeLoop true metas = [] := by
  induction metas with
  | nil => rfl
  | cons m metas ih =>
    unfold removeLoop
    rw [if_neg (h m (List.mem_cons_self _ _)).2,
      if_pos ⟨rfl, (h m (List.mem_cons_self _ _)).1⟩]
    exact ih fun x hx => h x (List.mem_cons_of_mem _ hx)

theorem removeLoop_metaBlock {metas : List (List Char)}
    (h : ∀ m ∈ metas, isPre shhhEnvKey (trimSpace m) = true ∧
      trimSpace m ≠ envMetaMarker) :
    removeLoop false ([] :: envMetaMarker :: metas) = [[]] := by
  unfold removeLoop
  rw [if_neg (by decide), if_neg (by simp), if_neg (by simp)]
  unfold removeLoop
  rw [if_pos (by decide)]
  rw [removeLoop_true_shhh h]

theorem trimTrailingBlank_concat_nil {ls : List (List Char)}
    (hlast : ∀ l, ls.getLast? = some l → trimSpace l ≠ []) :
    trimTrailingBlank (ls ++ [[]]) = ls := by
  unfold trimTrailingBlank
  rw [List.reverse_append]
  simp only [List.reverse_cons, List.reverse_nil, List.nil_append, List.singleton_append]
  rw [List.dropWhile_cons, if_pos (by simp [trimSpace, trimL, dropTrailing])]
  cases hrev : ls.reverse with
  | nil =>
    rw [List.reverse_eq_nil_iff.mp hrev]
    rfl
  | cons x t =>
    have hx : ls.getLast? = some x := by
      rw [← List.head?_reverse, hrev]
      rfl
    rw [List.dropWhile_cons, if_neg (by simp [hlast x hx]), ← hrev,
      List.reverse_reverse]

theorem add_env_as_joinLines (ls : List (List Char)) (meta : List (List Char × List Char)) :
    AddENVMetadata (joinLines ls) meta =
      joinLines (ls ++ [[]] ++ [envMetaMarker] ++ meta.map envMetaLine) := by
  have hflat : ∀ m : List (List Char × List Char),
      (m.map fun kv => envMetaLine kv ++ ['\n']).flatten = joinLines (m.map envMetaLine) := by
    intro m
    induction m with
    | nil => rfl
    | cons kv rest ih =>
      simp only [List.map_cons, List.flatten_cons, joinLines, List.foldr_cons] at ih ⊢
      rw [ih]
      simp [joinLines]
  rw [AddENVMetadata, hflat, joinLines_append, joinLines_append, joinLines_append]
  simp [joinLines]

/-- Core attach/strip round trip for ENV documents. -/
theorem remove_add_env {ls : List (List Char)} {meta : List (List Char × List Char)}
    (hl : ∀ l ∈ ls, '\n' ∉ l ∧ '\r' ∉ l ∧ trimSpace l ≠ envMetaMarker)
    (hlast : ∀ l, ls.getLast? = some l → trimSpace l ≠ [])
    (hm : ∀ kv ∈ meta, '\n' ∉ envMetaLine kv ∧ '\r' ∉ envMetaLine kv) :
    RemoveENVMetadata (AddENVMetadata (joinLines ls) meta) = joinLines ls := by
  rw [add_env_as_joinLines]
  unfold RemoveENVMetadata
  have hall : ∀ l ∈ ls ++ [[]] ++ [envMetaMarker] ++ meta.map envMetaLine,
      '\n' ∉ l ∧ '\r' ∉ l := by
    intro l hmem
    rcases List.mem_append.mp hmem with h1 | h2
    · rcases List.mem_append.mp h1 with h3 | h4
      · rcases List.mem_append.mp h3 with h5 | h6
        · exact ⟨(hl l h5).1, (hl l h5).2.1⟩
        · rw [List.mem_singleton.mp h6]
          exact ⟨by simp, by simp⟩
      · rw [List.mem_singleton.mp h4]
        exact ⟨by decide, by decide⟩
    · obtain ⟨kv, hkv, rfl⟩ := List.mem_map.mp h2
      exact hm kv hkv
  rw [scanLines_joinLines hall]
  have hshape : ls ++ [[]] ++ [envMetaMarker] ++ meta.map envMetaLine =
      ls ++ ([] :: envMetaMarker :: meta.map envMetaLine) := by simp
  rw [hshape, removeLoop_keep (fun l hmem => (hl l hmem).2.2) _,
    removeLoop_metaBlock (fun m hmem => by
      obtain ⟨kv, hkv, rfl⟩ := List.mem_map.mp hmem
      exact ⟨trimmed_metaLine_shhh kv, trimmed_metaLine_ne_marker kv⟩)]
  rw [show ls ++ [[]] = ls ++ [[]] from rfl, trimTrailingBlank_concat_nil hlast]

/-! ### Full-file envelope lemmas -/

theorem chunks64_spec (l : List Char) : (chunks64 l).flatten = l ∧
    ∀ ch ∈ chunks64 l, ch ≠ [] ∧ ∀ c ∈ ch, c ∈ l := by
  generalize hn : l.length = n
  induction n using Nat.strong_induction_on generalizing l with
  | _ n ih =>
    by_cases hl : l = []
    · subst hl
      simp [chunks64]
    · rw [chunks64, dif_neg hl]
      have hlen : (l.drop 64).length < n := by
        subst hn
        rw [List.length_drop]
        exact Nat.sub_lt (List.length_pos.mpr hl) (by norm_num)
      obtain ⟨ih1, ih2⟩ := ih _ hlen (l.drop 64) rfl
      refine ⟨?_, ?_⟩
      · rw [List.flatten_cons, ih1, List.take_append_drop]
      · intro ch hch
        rcases List.mem_cons.mp hch with rfl | hch2
        · refine ⟨?_, fun c hc => List.mem_of_mem_take hc⟩
          rw [ne_eq, List.take_eq_nil_iff]
          simp [hl]
        · obtain ⟨hne, hsub⟩ := ih2 ch hch2
          exact ⟨hne, fun c hc => List.mem_of_mem_drop (hsub c hc)⟩

theorem collectBody_cons (inBody : Bool) (l : List Char) (rest : List (List Char)) :
    collectBody inBody (l :: rest) =
      (if trimSpace l = [] ∧ ¬inBody then collectBody true rest
       else if trimSpace l = fullFooterL then []
       else if inBody ∧ trimSpace l ≠ [] then trimSpace l ++ collectBody inBody rest
       else collectBody inBody rest) := rfl

theorem collectBody_skip {l : List Char} {rest : List (List Char)}
    (h1 : trimSpace l ≠ []) (h2 : trimSpace l ≠ fullFooterL) :
    collectBody false (l :: rest) = collectBody false rest := by
  rw [collectBody_cons, if_neg (by simp [h1]), if_neg h2, if_neg (by simp)]

theorem collectBody_chunks {chs : List (List Char)}
    (h : ∀ ch ∈ chs, ch ≠ [] ∧ (∀ c ∈ ch, ¬isSpace c) ∧ ch ≠ fullFooterL)
    (tail : List (List Char)) :
    collectBody true (chs ++ fullFooterL :: tail) = chs.flatten := by
  induction chs with
  | nil =>
    rw [List.nil_append, collectBody_cons, if_neg (by simp), if_pos (by decide)]
    rfl
  | cons ch chs ih =>
    obtain ⟨hne, hns, hnf⟩ := h ch (List.mem_cons_self _ _)
    have htr : trimSpace ch = ch := trimSpace_of_no_space hns
    rw [List.cons_append, collectBody_cons,
      if_neg (by simp [htr, hne]), if_neg (by rw [htr]; exact hnf),
      if_pos ⟨rfl, by simp [htr, hne]⟩, htr,
      ih fun x hx => h x (List.mem_cons_of_mem _ hx), List.flatten_cons]

theorem joinComma_not_mem {c : Char} (hc1 : c ≠ ',') (hc2 : c ≠ ' ')
    {recips : List (List Char)} (h : ∀ r ∈ recips, c ∉ r) :
    c ∉ joinComma recips := by
  induction recips with
  | nil => simp [joinComma]
  | cons r rs ih =>
    cases rs with
    | nil => exact h r (List.mem_cons_self _ _)
    | cons r2 rs2 =>
      unfold joinComma
      intro hmem
      rcases List.mem_append.mp hmem with h1 | h2
      · exact h r (List.mem_cons_self _ _) h1
      · rcases List.mem_cons.mp h2 with h3 | h4
        · exact hc1 h3
        · rcases List.mem_cons.mp h4 with h5 | h6
          · exact hc2 h5
          · exact ih (fun x hx => h x (List.mem_cons_of_mem _ hx)) h6

/-- `trimSpace` facts for the labelled metadata lines: non-blank and not the
footer, independent of the label payload. -/
theorem labelled_line_ok {c : Char} (pre suf : List Char) (hc : ¬isSpace c)
    (hfoot : c ≠ '-') :
    trimSpace (c :: pre ++ suf) ≠ [] ∧ trimSpace (c :: pre ++ suf) ≠ fullFooterL := by
  rw [List.cons_append, trimSpace_cons_nonspace _ hc]
  refine ⟨by simp, ?_⟩
  intro h
  have := congrArg (List.head? ·) h
  simp [fullFooterL] at this
  exact hfoot this

theorem collectBody_full {vault now : List Char} {recips : List (List Char)}
    {encoded : List Char} (henc : ∀ c ∈ encoded, c ∈ b64Charset) :
    collectBody false (fullFileLines vault now recips encoded ++ [[]]) = encoded := by
  have hchunk : ∀ ch ∈ chunks64 encoded, ch ≠ [] ∧ (∀ c ∈ ch, ¬isSpace c) ∧
      ch ≠ fullFooterL := by
    intro ch hch
    obtain ⟨hne, hsub⟩ := (chunks64_spec encoded).2 ch hch
    refine ⟨hne, fun c hc => (charset_safe c (henc c (hsub c hc))).1, ?_⟩
    intro heq
    have hdash : '-' ∈ ch := by
      rw [heq]
      decide
    exact (charset_safe '-' (henc '-' (hsub '-' hdash))).2.2.2 rfl
  have hassoc : fullFileLines vault now recips encoded ++ [[]] =
      fullHeaderL :: "Version: 1".data :: ("Vault: ".data ++ vault) ::
      "Mode: full".data :: ("Recipients: ".data ++ joinComma recips) ::
      ("Encrypted-At: ".data ++ now) :: [] ::
      (chunks64 encoded ++ fullFooterL :: [[]]) := by
    unfold fullFileLines
    simp
  rw [hassoc]
  rw [collectBody_skip (by decide) (by decide)]
  rw [collectBody_skip (by decide) (by decide)]
  rw [collectBody_skip
    (labelled_line_ok (c := 'V') "ault: ".data vault (by decide) (by decide)).1
    (labelled_line_ok (c := 'V') "ault: ".data vault (by decide) (by decide)).2]
  rw [collectBody_skip (by decide) (by decide)]
  rw [collectBody_skip
    (labelled_line_ok (c := 'R') "ecipients: ".data (joinComma recips)
      (by decide) (by decide)).1
    (labelled_line_ok (c := 'R') "ecipients: ".data (joinComma recips)
      (by decide) (by decide)).2]
  rw [collectBody_skip
    (labelled_line_ok (c := 'E') "ncrypted-At: ".data now (by decide) (by decide)).1
    (labelled_line_ok (c := 'E') "ncrypted-At: ".data now (by decide) (by decide)).2]
  rw [collectBody_cons, if_pos ⟨rfl, by simp⟩]
  rw [collectBody_chunks hchunk [[]]]
  exact (chunks64_spec encoded).1

/-! ### Top-level round trip assembly -/

theorem envLinesGo_pass {f : List Char → Option (List Char)} {e : Bool} :
    ∀ xs : List (List Char), (∀ l ∈ xs, passLine l) →
      (envLinesGo f e xs).1 = some (joinLines xs)
  | [], _ => rfl
  | l :: ls, h =>
    envLinesGo_cons_some (processLineT_pass (h l (List.mem_cons_self _ _)) f e)
      (envLinesGo_pass ls fun x hx => h x (List.mem_cons_of_mem _ hx))

theorem metaLine_not_mem {k v : List Char} {c : Char} (hk : c ∉ upperStr k)
    (hv : c ∉ v) (hc1 : c ∉ shhhEnvKey) (hc2 : c ≠ '=') :
    c ∉ envMetaLine (k, v) := by
  unfold envMetaLine
  intro hmem
  rcases List.mem_append.mp hmem with h1 | h2
  · rcases List.mem_append.mp h1 with h3 | h4
    · exact hc1 h3
    · exact hk h4
  · rcases List.mem_cons.mp h2 with h3 | h4
    · exact hc2 h3
    · exact hv h4

/-- The metadata lines written for an `.env` file are single clean lines when
the option strings are. -/
theorem envFileMeta_lines_clean {vault mode now : List Char} {recips : List (List Char)}
    {c : Char} (hc : c ∉ "=, ".data ∧ c ∉ "1VERSIONAULTMDCYP_H".data)
    (hv : c ∉ vault) (hm : c ∉ mode) (hn : c ∉ now) (hr : ∀ r ∈ recips, c ∉ r) :
    ∀ kv ∈ envFileMetadata vault mode now recips, c ∉ envMetaLine kv := by
  have hc2 : c ≠ '=' := fun h => hc.1 (by rw [h]; decide)
  have hcc : c ≠ ',' := fun h => hc.1 (by rw [h]; decide)
  have hcs : c ≠ ' ' := fun h => hc.1 (by rw [h]; decide)
  have hshhh : c ∉ shhhEnvKey := by
    intro h
    apply hc.2
    revert h
    have : ∀ x ∈ shhhEnvKey, x ∈ "1VERSIONAULTMDCYP_H".data := by decide
    exact fun h => this c h
  intro kv hkv
  simp only [envFileMetadata, List.mem_cons, List.not_mem_nil, or_false] at hkv
  have hlit : ∀ s : List Char, (∀ x ∈ s, x ∈ "1VERSIONAULTMDCYP_H".data) → c ∉ s :=
    fun s hs hmem => hc.2 (hs c hmem)
  rcases hkv with rfl | rfl | rfl | rfl | rfl
  · exact metaLine_not_mem (hlit _ (by decide)) (hlit _ (by decide)) hshhh hc2
  · exact metaLine_not_mem (hlit _ (by decide)) hv hshhh hc2
  · exact metaLine_not_mem (hlit _ (by decide)) hm hshhh hc2
  · exact metaLine_not_mem (hlit _ (by decide)) hn hshhh hc2
  · exact metaLine_not_mem (hlit _ (by decide))
      (joinComma_not_mem hcc hcs hr) hshhh hc2

theorem full_mode_roundtrip {pEnc : List Char → List (List Char) → Option (List Char)}
    {pDec : List Char → Option (List Char)} {vault now content cipher : List Char}
    {recips : List (List Char)}
    (hv : '\n' ∉ vault) (hn : '\n' ∉ now) (hr : ∀ r ∈ recips, '\n' ∉ r)
    (hc : pEnc content recips = some cipher) (hcne : cipher ≠ [])
    (hb : ∀ c ∈ cipher, c.toNat < 256) (hinv : pDec cipher = some content) :
    encryptFileEnv pEnc vault "full".data now recips content =
      some (joinLines (fullFileLines vault now recips (b64EncodeList cipher))) ∧
    decryptFileEnv pDec
      (joinLines (fullFileLines vault now recips (b64EncodeList cipher))) =
      some content := by
  have hencset := b64Encode_mem_charset cipher hb
  constructor
  · unfold encryptFileEnv
    rw [if_pos rfl]
    unfold encryptFullFile
    rw [hc]
  · unfold decryptFileEnv
    have hpre : isPre fullHeaderL
        (joinLines (fullFileLines vault now recips (b64EncodeList cipher))) = true := by
      show isPre fullHeaderL (fullHeaderL ++ '\n' :: _) = true
      exact isPre_append_self _ _
    rw [if_pos hpre]
    unfold decryptFullFile
    have hlines : ∀ l ∈ fullFileLines vault now recips (b64EncodeList cipher),
        '\n' ∉ l := by
      intro l hmem
      unfold fullFileLines at hmem
      rcases List.mem_append.mp hmem with h1 | h2
      · rcases List.mem_append.mp h1 with h3 | h4
        · simp only [List.mem_cons, List.not_mem_nil, or_false] at h3
          rcases h3 with rfl | rfl | rfl | rfl | rfl | rfl | rfl
          · decide
          · decide
          · intro hm
            rcases List.mem_append.mp hm with ha | hb2
            · revert ha
              decide
            · exact hv hb2
          · decide
          · intro hm
            rcases List.mem_append.mp hm with ha | hb2
            · revert ha
              decide
            · exact joinComma_not_mem (by decide) (by decide) hr hb2
          · intro hm
            rcases List.mem_append.mp hm with ha | hb2
            · revert ha
              decide
            · exact hn hb2
          · simp
        · intro hm
          have hsub := ((chunks64_spec (b64EncodeList cipher)).2 l h4).2 _ hm
          exact (charset_safe _ (hencset _ hsub)).1 (by decide)
      · rw [List.mem_singleton.mp h2]
        decide
    rw [splitNl_joinLines hlines, collectBody_full hencset]
    show (match b64DecodeList (b64EncodeList cipher) with
      | none => none
      | some decoded => pDec decoded) = some content
    rw [b64_roundtrip cipher hb]
    exact hinv

theorem values_mode_roundtrip {pEnc : List Char → List (List Char) → Option (List Char)}
    {pDec : List Char → Option (List Char)} {vault mode now : List Char}
    {recips ls : List (List Char)}
    (hrec : recips ≠ [])
    (hprov : ∀ v, (∀ ch ∈ v, ch.toNat < 256) → ∃ c, pEnc v recips = some c ∧ c ≠ [] ∧
      (∀ ch ∈ c, ch.toNat < 256) ∧ pDec c = some v)
    (hok : ∀ l ∈ ls, lineOK l)
    (hlast : ∀ l, ls.getLast? = some l → trimSpace l ≠ [])
    (hmode : mode ≠ "full".data)
    (hv : '\n' ∉ vault ∧ '\r' ∉ vault) (hm : '\n' ∉ mode ∧ '\r' ∉ mode)
    (hn : '\n' ∉ now ∧ '\r' ∉ now) (hr : ∀ r ∈ recips, '\n' ∉ r ∧ '\r' ∉ r)
    (hsz : validSize (joinLines ls) = true) :
    ∀ out, encryptFileEnv pEnc vault mode now recips (joinLines ls) = some out →
      validSize out = true → decryptFileEnv pDec out = some (joinLines ls) := by
  obtain ⟨ls', h1, h2, hlen, h3⟩ := env_lines_roundtrip_list hrec hprov ls hok
  have hlsclean : ∀ l ∈ ls, '\n' ∉ l ∧ '\r' ∉ l :=
    fun l hl => ⟨(hok l hl).1, (hok l hl).2.1⟩
  have hmetaN : ∀ kv ∈ envFileMetadata vault mode now recips,
      '\n' ∉ envMetaLine kv :=
    envFileMeta_lines_clean ⟨by decide, by decide⟩ hv.1 hm.1 hn.1
      (fun r hrr => (hr r hrr).1)
  have hmetaR : ∀ kv ∈ envFileMetadata vault mode now recips,
      '\r' ∉ envMetaLine kv :=
    envFileMeta_lines_clean ⟨by decide, by decide⟩ hv.2 hm.2 hn.2
      (fun r hrr => (hr r hrr).2)
  have henvv : (envValuesT (EncryptValue pEnc recips) true (joinLines ls)).1 =
      some (joinLines ls') := by
    unfold envValuesT
    rw [if_neg (by simp [hsz]), scanLines_joinLines hlsclean]
    exact h1
  intro out hout hsz2
  unfold encryptFileEnv at hout
  rw [if_neg hmode] at hout
  replace hout : (match (envValuesT (EncryptValue pEnc recips) true (joinLines ls)).1 with
    | none => none
    | some encrypted =>
        some (AddENVMetadata encrypted (envFileMetadata vault mode now recips))) =
      some out := hout
  rw [henvv] at hout
  replace hout : some (AddENVMetadata (joinLines ls')
      (envFileMetadata vault mode now recips)) = some out := hout
  have hout2 := Option.some.inj hout
  subst hout2
  set meta := envFileMetadata vault mode now recips with hmeta
  have haddj := add_env_as_joinLines ls' meta
  have hLclean : ∀ l ∈ ls' ++ [[]] ++ [envMetaMarker] ++ meta.map envMetaLine,
      '\n' ∉ l ∧ '\r' ∉ l := by
    intro l hmem
    rcases List.mem_append.mp hmem with hA | hB
    · rcases List.mem_append.mp hA with hC | hD
      · rcases List.mem_append.mp hC with hE | hF
        · exact ⟨(h3 l hE).1, (h3 l hE).2.1⟩
        · rw [List.mem_singleton.mp hF]
          exact ⟨by simp, by simp⟩
      · rw [List.mem_singleton.mp hD]
        exact ⟨by decide, by decide⟩
    · obtain ⟨kv, hkv, rfl⟩ := List.mem_map.mp hB
      exact ⟨hmetaN kv hkv, hmetaR kv hkv⟩
  have hpassBlock : ∀ l ∈ ([] :: envMetaMarker :: meta.map envMetaLine), passLine l := by
    intro l hmem
    rcases List.mem_cons.mp hmem with rfl | hmem2
    · exact passLine_nil
    · rcases List.mem_cons.mp hmem2 with rfl | hmem3
      · exact passLine_metaMarker
      · obtain ⟨kv, _, rfl⟩ := List.mem_map.mp hmem3
        exact passLine_metaLine kv
  have hshape : ls' ++ [[]] ++ [envMetaMarker] ++ meta.map envMetaLine =
      ls' ++ ([] :: envMetaMarker :: meta.map envMetaLine) := by simp
  have hdecv : (envValuesT (DecryptValue pDec)
      false (AddENVMetadata (joinLines ls') meta)).1 =
      some (joinLines (ls ++ ([] :: envMetaMarker :: meta.map envMetaLine))) := by
    unfold envValuesT
    rw [if_neg (by simpa using hsz2), haddj,
      scanLines_joinLines hLclean, hshape,
      envLinesGo_append_some h2 (envLinesGo_pass _ hpassBlock), ← joinLines_append]
  have hheader : isPre fullHeaderL (AddENVMetadata (joinLines ls') meta) = false := by
    rw [haddj]
    cases ls' with
    | nil =>
      show isPre fullHeaderL ([] ++ '\n' :: _) = false
      rw [isPre_indep (p := fullHeaderL) (by decide) [] _ []]
      decide
    | cons l0 rest =>
      show isPre fullHeaderL (l0 ++ '\n' :: _) = false
      rw [isPre_indep (p := fullHeaderL) (by decide) l0 _ []]
      exact (h3 l0 (List.mem_cons_self _ _)).2.2.2
  unfold decryptFileEnv
  rw [if_neg (by simp [hheader]), hdecv]
  show some (RemoveENVMetadata
    (joinLines (ls ++ ([] :: envMetaMarker :: meta.map envMetaLine)))) =
    some (joinLines ls)
  rw [show ls ++ ([] :: envMetaMarker :: meta.map envMetaLine) =
      ls ++ [[]] ++ [envMetaMarker] ++ meta.map envMetaLine from by simp,
    ← add_env_as_joinLines ls meta,
    remove_add_env (fun l hl => ⟨(hok l hl).1, (hok l hl).2.1, (hok l hl).2.2.1⟩)
      hlast (fun kv hkv => ⟨hmetaN kv hkv, hmetaR kv hkv⟩)]

/-! ### JSON traversal lemmas -/

mutual

/-- Every string scalar (outside `_shhh` subtrees) is already a marker or
empty. -/
def allMarked : Json → Bool
  | .str s => IsEncrypted s || s.isEmpty
  | .arr xs => allMarkedArr xs
  | .obj kvs => allMarkedObj kvs
  | _ => true

def allMarkedArr : List Json → Bool
  | [] => true
  | v :: rest => allMarked v && allMarkedArr rest

def allMarkedObj : List (List Char × Json) → Bool
  | [] => true
  | (k, v) :: rest => (decide (k = shhhKey) || allMarked v) && allMarkedObj rest

end

theorem jsonProcessT_eq (f : List Char → Option (List Char)) (enc : Bool)
    (d : Nat) (v : Json) :
    jsonProcessT f enc d v =
      if maxNestingDepth < d then (none, [])
      else
        match v with
        | .obj kvs =>
          match jsonObjGo f enc d kvs with
          | (none, lg) => (none, lg)
          | (some kvs', lg) => (some (.obj kvs'), lg)
        | .arr xs =>
          match jsonArrGo f enc d xs with
          | (none, lg) => (none, lg)
          | (some xs', lg) => (some (.arr xs'), lg)
        | .str s =>
          if enc then
            if ¬(IsEncrypted s) ∧ s ≠ [] then
              match f s with
              | some e => (some (.str e), [s])
              | none => (none, [s])
            else (some (.str s), [])
          else
            if IsEncrypted s then
              match f s with
              | some d => (some (.str d), [s])
              | none => (none, [s])
            else (some (.str s), [])
        | other => (some other, []) := by
  cases v <;> rfl

/-- Scalar behavior of the JSON encryptor: markers and empty strings pass
through untouched (and untransformed); everything else gets the transform. -/
theorem jsonProcessT_str_pass {f : List Char → Option (List Char)} {d : Nat}
    {s : List Char} (hd : d ≤ maxNestingDepth)
    (h : IsEncrypted s = true ∨ s = []) :
    jsonProcessT f true d (.str s) = (some (.str s), []) := by
  rw [jsonProcessT_eq, if_neg (by omega)]
  simp only [if_true]
  rw [if_neg (by rcases h with h | h <;> simp [h])]

theorem jsonProcessT_str_hit {f : List Char → Option (List Char)} {d : Nat}
    {s : List Char} (hd : d ≤ maxNestingDepth)
    (h1 : IsEncrypted s = false) (h2 : s ≠ []) :
    jsonProcessT f true d (.str s) = ((f s).map Json.str, [s]) := by
  rw [jsonProcessT_eq, if_neg (by omega)]
  simp only [if_true]
  rw [if_pos ⟨by simp [h1], h2⟩]
  cases f s <;> rfl

mutual

/-- A document all of whose string scalars are already markers (or empty)
re-encrypts to itself with no transform invocation. -/
theorem processT_marked {f : List Char → Option (List Char)} :
    ∀ (j : Json) (d : Nat), d + jdepth j ≤ 101 → allMarked j = true →
      jsonProcessT f true d j = (some j, [])
  | .null, d, hd, _ => by
    rw [jsonProcessT_eq, if_neg (by unfold jdepth at hd; unfold maxNestingDepth; omega)]
  | .bool b, d, hd, _ => by
    rw [jsonProcessT_eq, if_neg (by unfold jdepth at hd; unfold maxNestingDepth; omega)]
  | .num q, d, hd, _ => by
    rw [jsonProcessT_eq, if_neg (by unfold jdepth at hd; unfold maxNestingDepth; omega)]
  | .str s, d, hd, hm => by
    have hd' : d ≤ maxNestingDepth := by
      unfold jdepth at hd
      unfold maxNestingDepth
      omega
    apply jsonProcessT_str_pass hd'
    unfold allMarked at hm
    rcases Bool.or_eq_true _ _ |>.mp hm with h | h
    · exact Or.inl h
    · exact Or.inr (by simpa using h)
  | .arr xs, d, hd, hm => by
    rw [jsonProcessT_eq,
      if_neg (by unfold jdepth at hd; unfold maxNestingDepth; omega)]
    show (match jsonArrGo f true d xs with
      | (none, lg) => (none, lg)
      | (some xs', lg) => (some (Json.arr xs'), lg)) = (some (Json.arr xs), [])
    rw [processArr_marked xs d (by unfold jdepth at hd; omega) (by
      unfold allMarked at hm
      exact hm)]
  | .obj kvs, d, hd, hm => by
    rw [jsonProcessT_eq,
      if_neg (by unfold jdepth at hd; unfold maxNestingDepth; omega)]
    show (match jsonObjGo f true d kvs with
      | (none, lg) => (none, lg)
      | (some kvs', lg) => (some (Json.obj kvs'), lg)) = (some (Json.obj kvs), [])
    rw [processObj_marked kvs d (by unfold jdepth at hd; omega) (by
      unfold allMarked at hm
      exact hm)]

theorem processArr_marked {f : List Char → Option (List Char)} :
    ∀ (xs : List Json) (d : Nat), d + jdepthArr xs ≤ 100 → allMarkedArr xs = true →
      jsonArrGo f true d xs = (some xs, [])
  | [], _, _, _ => rfl
  | v :: rest, d, hd, hm => by
    unfold jdepthArr at hd
    unfold allMarkedArr at hm
    rw [Bool.and_eq_true] at hm
    unfold jsonArrGo
    rw [processT_marked v (d + 1) (by omega) hm.1,
      processArr_marked rest d (by omega) hm.2]
    rfl

theorem processObj_marked {f : List Char → Option (List Char)} :
    ∀ (kvs : List (List Char × Json)) (d : Nat), d + jdepthObj kvs ≤ 100 →
      allMarkedObj kvs = true → jsonObjGo f true d kvs = (some kvs, [])
  | [], _, _, _ => rfl
  | (k, v) :: rest, d, hd, hm => by
    unfold jdepthObj at hd
    unfold allMarkedObj at hm
    rw [Bool.and_eq_true] at hm
    unfold jsonObjGo
    by_cases hk : k = shhhKey
    · rw [if_pos hk, processObj_marked rest d (by rw [if_pos hk] at hd; omega) hm.2]
    · rw [if_neg hk] at hd
      rw [if_neg hk, processT_marked v (d + 1) (by omega) (by
        rcases Bool.or_eq_true _ _ |>.mp hm.1 with h | h
        · exact absurd (by simpa using h) hk
        · exact h),
        processObj_marked rest d (by omega) hm.2]
      rfl

end

mutual

/-- A structure whose (non-`_shhh`) nesting exceeds the ceiling always makes
`processValue` fail. -/
theorem processT_depth (f : List Char → Option (List Char)) (enc : Bool) :
    ∀ (j : Json) (d : Nat), 101 < d + jdepth j → (jsonProcessT f enc d j).1 = none
  | .null, d, h => by
    unfold jdepth at h
    rw [jsonProcessT_eq, if_pos (by unfold maxNestingDepth; omega)]
  | .bool b, d, h => by
    unfold jdepth at h
    rw [jsonProcessT_eq, if_pos (by unfold maxNestingDepth; omega)]
  | .num q, d, h => by
    unfold jdepth at h
    rw [jsonProcessT_eq, if_pos (by unfold maxNestingDepth; omega)]
  | .str s, d, h => by
    unfold jdepth at h
    rw [jsonProcessT_eq, if_pos (by unfold maxNestingDepth; omega)]
  | .arr xs, d, h => by
    by_cases hd : maxNestingDepth < d
    · rw [jsonProcessT_eq, if_pos hd]
    · have harr := processArr_depth f enc xs d
        (by unfold maxNestingDepth at hd; omega)
        (by unfold jdepth at h; omega)
      rw [jsonProcessT_eq, if_neg hd]
      show (match jsonArrGo f enc d xs with
        | (none, lg) => (none, lg)
        | (some xs', lg) => (some (Json.arr xs'), lg)).1 = none
      cases hgo : jsonArrGo f enc d xs with
      | mk a lg =>
        rw [hgo] at harr
        simp only at harr
        subst harr
        rfl
  | .obj kvs, d, h => by
    by_cases hd : maxNestingDepth < d
    · rw [jsonProcessT_eq, if_pos hd]
    · have hobj := processObj_depth f enc kvs d
        (by unfold maxNestingDepth at hd; omega)
        (by unfold jdepth at h; omega)
      rw [jsonProcessT_eq, if_neg hd]
      show (match jsonObjGo f enc d kvs with
        | (none, lg) => (none, lg)
        | (some kvs', lg) => (some (Json.obj kvs'), lg)).1 = none
      cases hgo : jsonObjGo f enc d kvs with
      | mk a lg =>
        rw [hgo] at hobj
        simp only at hobj
        subst hobj
        rfl

theorem processArr_depth (f : List Char → Option (List Char)) (enc : Bool) :
    ∀ (xs : List Json) (d : Nat), d ≤ 100 → 100 < d + jdepthArr xs →
      (jsonArrGo f enc d xs).1 = none
  | [], d, hd, h => by
    unfold jdepthArr at h
    omega
  | v :: rest, d, hd, h => by
    unfold jdepthArr at h
    unfold jsonArrGo
    by_cases hv : 100 < d + jdepth v
    · have hpv := processT_depth f enc v (d + 1) (by omega)
      cases hp : jsonProcessT f enc (d + 1) v with
      | mk a lg =>
        rw [hp] at hpv
        simp only at hpv
        subst hpv
        rfl
    · have hrest : 100 < d + jdepthArr rest := by
        rcases Nat.le_total (jdepth v) (jdepthArr rest) with hle | hle
        · rw [Nat.max_eq_right hle] at h
          omega
        · rw [Nat.max_eq_left hle] at h
          omega
      have hpr := processArr_depth f enc rest d hd hrest
      cases hp : jsonProcessT f enc (d + 1) v with
      | mk a lg =>
        cases a with
        | none => rfl
        | some v' =>
          cases hgo : jsonArrGo f enc d rest with
          | mk b lg2 =>
            rw [hgo] at hpr
            simp only at hpr
            subst hpr
            rfl

theorem processObj_depth (f : List Char → Option (List Char)) (enc : Bool) :
    ∀ (kvs : List (List Char × Json)) (d : Nat), d ≤ 100 → 100 < d + jdepthObj kvs →
      (jsonObjGo f enc d kvs).1 = none
  | [], d, hd, h => by
    unfold jdepthObj at h
    omega
  | (k, v) :: rest, d, hd, h => by
    unfold jdepthObj at h
    unfold jsonObjGo
    by_cases hk : k = shhhKey
    · rw [if_pos hk] at h
      rw [if_pos hk]
      have hpr := processObj_depth f enc rest d hd h
      cases hgo : jsonObjGo f enc d rest with
      | mk b lg2 =>
        rw [hgo] at hpr
        simp only at hpr
        subst hpr
        rfl
    · rw [if_neg hk] at h
      rw [if_neg hk]
      by_cases hv : 100 < d + jdepth v
      · have hpv := processT_depth f enc v (d + 1) (by omega)
        cases hp : jsonProcessT f enc (d + 1) v with
        | mk a lg =>
          rw [hp] at hpv
          simp only at hpv
          subst hpv
          rfl
      · have hrest : 100 < d + jdepthObj rest := by
          rcases Nat.le_total (jdepth v) (jdepthObj rest) with hle | hle
          · rw [Nat.max_eq_right hle] at h
            omega
          · rw [Nat.max_eq_left hle] at h
            omega
        have hpr := processObj_depth f enc rest d hd hrest
        cases hp : jsonProcessT f enc (d + 1) v with
        | mk a lg =>
          cases a with
          | none => rfl
          | some v' =>
            cases hgo : jsonObjGo f enc d rest with
            | mk b lg2 =>
              rw [hgo] at hpr
              simp only at hpr
              subst hpr
              rfl

end

theorem jsonValuesT_oversize (parse : List Char → Option Json) (ser : Json → List Char)
    (f : List Char → Option (List Char)) (enc : Bool) {content : List Char}
    (h : maxFileSize < content.length) :
    jsonValuesT parse ser f enc content = (none, []) := by
  unfold jsonValuesT
  rw [if_pos]
  simp only [validSize, decide_eq_true_eq]
  omega

theorem envValuesT_oversize (f : List Char → Option (List Char)) (enc : Bool)
    {content : List Char} (h : maxFileSize < content.length) :
    envValuesT f enc content = (none, []) := by
  unfold envValuesT
  rw [if_pos]
  simp only [validSize, decide_eq_true_eq]
  omega

/-! ### Reserved metadata key lemmas (C7) -/

theorem jsonObjGo_shhh_skip {f : List Char → Option (List Char)} {enc : Bool}
    {d : Nat} {v : Json} {rest : List (List Char × Json)} :
    jsonObjGo f enc d ((shhhKey, v) :: rest) =
      (match jsonObjGo f enc d rest with
       | (none, lg) => (none, lg)
       | (some rest', lg) => (some ((shhhKey, v) :: rest'), lg)) := by
  simp only [jsonObjGo]
  rw [if_pos trivial]

/-- The transform-invocation log of the object loop never sees values under
the reserved `_shhh` key: dropping those entries leaves the log unchanged. -/
theorem jsonObjGo_log_filter (f : List Char → Option (List Char)) (enc : Bool)
    (d : Nat) :
    ∀ kvs : List (List Char × Json),
      (jsonObjGo f enc d kvs).2 =
        (jsonObjGo f enc d (kvs.filter fun kv => kv.1 ≠ shhhKey)).2
  | [] => rfl
  | (k, v) :: rest => by
    by_cases hk : k = shhhKey
    · have hstep : (jsonObjGo f enc d ((k, v) :: rest)).2 =
          (jsonObjGo f enc d rest).2 := by
        subst hk
        rw [jsonObjGo_shhh_skip]
        cases hgo : jsonObjGo f enc d rest with
        | mk a lg => cases a <;> rfl
      rw [hstep, List.filter_cons_of_neg (by simp [hk]),
        jsonObjGo_log_filter f enc d rest]
    · rw [List.filter_cons_of_pos (by simp [hk])]
      show (jsonObjGo f enc d ((k, v) :: rest)).2 =
        (jsonObjGo f enc d ((k, v) :: rest.filter fun kv => kv.1 ≠ shhhKey)).2
      unfold jsonObjGo
      rw [if_neg hk, if_neg hk]
      cases hp : jsonProcessT f enc (d + 1) v with
      | mk a lg =>
        cases a with
        | none => rfl
        | some v' =>
          have := jsonObjGo_log_filter f enc d rest
          cases hgo1 : jsonObjGo f enc d rest with
          | mk b1 lg1 =>
            cases hgo2 : jsonObjGo f enc d (rest.filter fun kv => kv.1 ≠ shhhKey) with
            | mk b2 lg2 =>
              rw [hgo1, hgo2] at this
              simp only at this
              subst this
              cases b1 <;> cases b2 <;> rfl

/-- `_shhh` entries survive the object loop byte-identical. -/
theorem jsonObjGo_preserves_shhh {f : List Char → Option (List Char)} {enc : Bool}
    {d : Nat} :
    ∀ {kvs out : List (List Char × Json)} {lg : List (List Char)} {v : Json},
      jsonObjGo f enc d kvs = (some out, lg) → (shhhKey, v) ∈ kvs →
        (shhhKey, v) ∈ out := by
  intro kvs
  induction kvs with
  | nil =>
    intro out lg v h hmem
    cases hmem
  | cons kv rest ih =>
    intro out lg v h hmem
    obtain ⟨k, w⟩ := kv
    by_cases hk : k = shhhKey
    · subst hk
      rw [jsonObjGo_shhh_skip] at h
      cases hgo : jsonObjGo f enc d rest with
      | mk a lg2 =>
        rw [hgo] at h
        cases a with
        | none => cases h
        | some rest' =>
          replace h : (some ((shhhKey, w) :: rest'), lg2) = (some out, lg) := h
          have hout : (shhhKey, w) :: rest' = out := by
            have := congrArg Prod.fst h
            simpa using this
          subst hout
          rcases List.mem_cons.mp hmem with heq | hmem2
          · rw [heq]
            exact List.mem_cons_self _ _
          · exact List.mem_cons_of_mem _ (ih (by rw [hgo]) hmem2)
    · replace h : (match jsonProcessT f enc (d + 1) w with
        | (none, lg) => (none, lg)
        | (some v', lg) =>
          match jsonObjGo f enc d rest with
          | (none, lg2) => (none, lg ++ lg2)
          | (some rest', lg2) => (some ((k, v') :: rest'), lg ++ lg2)) =
          (some out, lg) := by
        rw [← h]
        simp only [jsonObjGo]
        rw [if_neg hk]
      cases hp : jsonProcessT f enc (d + 1) w with
      | mk a lga =>
        rw [hp] at h
        cases a with
        | none => cases h
        | some w' =>
          cases hgo : jsonObjGo f enc d rest with
          | mk b lgb =>
            rw [hgo] at h
            cases b with
            | none => cases h
            | some rest' =>
              replace h : (some ((k, w') :: rest'), lga ++ lgb) = (some out, lg) := h
              have hout : (k, w') :: rest' = out := by
                have := congrArg Prod.fst h
                simpa using this
              subst hout
              rcases List.mem_cons.mp hmem with heq | hmem2
              · exact absurd (congrArg Prod.fst heq).symm (by simpa using hk)
              · exact List.mem_cons_of_mem _ (ih (by rw [hgo]) hmem2)

/-- ENV lines carrying the reserved `_SHHH_` prefix pass through both
operations untouched and untransformed. -/
theorem processLineT_shhh {f : List Char → Option (List Char)} {enc : Bool}
    {line : List Char} (h : isPre shhhEnvKey (trimSpace line) = true) :
    processLineT f enc line = (some line, []) := by
  obtain ⟨t, ht⟩ := isPre_iff.mp h
  unfold processLineT
  rw [if_neg, if_pos h]
  rw [ht]
  simp only [Bool.or_eq_true, not_or]
  constructor
  · simp [shhhEnvKey]
  · show ¬isPre ['#'] (shhhEnvKey ++ t) = true
    rw [show shhhEnvKey ++ t = '_' :: ("SHHH_".data ++ t) from rfl]
    simp [isPre]

/-- The `_shhh` INI section is skipped wholesale. -/
theorem iniSectionGo_shhh (f : List Char → Option (List Char)) (enc : Bool)
    (keys : List (List Char × List Char)) :
    iniSectionGo f enc shhhSection keys = (some keys, []) := by
  unfold iniSectionGo
  rw [if_pos rfl]

/-- The YAML mapping loop skips a pair whose key node holds `_shhh`: the
recursive `processNode` call is never issued through the mapping entry
itself, whatever that call is. -/
theorem yamlMapF_shhh_skip
    {step : List YNode → Nat → Option (List YNode) × List (List Char)}
    {st : List YNode} {k v : Nat} {rest : List Nat} {kn : YNode}
    (hget : st.get? k = some kn) (hk : kn.value = shhhKey) :
    yamlMapF step st (k :: v :: rest) = yamlMapF step st rest := by
  show (match st.get? k with
    | none => (none, [])
    | some kn =>
      if kn.value = shhhKey then yamlMapF step st rest
      else
        match step st v with
        | (none, lg) => (none, lg)
        | (some st', lg) =>
          match yamlMapF step st' rest with
          | (none, lg2) => (none, lg ++ lg2)
          | (some st'', lg2) => (some st'', lg ++ lg2)) = yamlMapF step st rest
  rw [hget]
  show (if kn.value = shhhKey then yamlMapF step st rest else _) = _
  rw [if_pos hk]

theorem ytMap_shhh_skip {f : List Char → Option (List Char)} {enc : Bool}
    {d : Nat} {k v : YTree} {rest : List (YTree × YTree)}
    (hk : yvalue k = shhhKey) :
    ytMap f enc d ((k, v) :: rest) =
      (match ytMap f enc d rest with
       | (none, lg) => (none, lg)
       | (some rest', lg) => (some ((k, v) :: rest'), lg)) := by
  simp only [ytMap]
  rw [if_pos hk]

/-- The tree-level mapping loop's invocation log never sees values under a
`_shhh` key: dropping those pairs leaves the log unchanged. -/
theorem ytMap_log_filter (f : List Char → Option (List Char)) (enc : Bool)
    (d : Nat) :
    ∀ ps : List (YTree × YTree),
      (ytMap f enc d ps).2 =
        (ytMap f enc d (ps.filter fun p => yvalue p.1 ≠ shhhKey)).2
  | [] => rfl
  | (k, v) :: rest => by
    by_cases hk : yvalue k = shhhKey
    · have hstep : (ytMap f enc d ((k, v) :: rest)).2 = (ytMap f enc d rest).2 := by
        rw [ytMap_shhh_skip hk]
        cases hgo : ytMap f enc d rest with
        | mk a lg => cases a <;> rfl
      rw [hstep, List.filter_cons_of_neg (by simp [hk]),
        ytMap_log_filter f enc d rest]
    · rw [List.filter_cons_of_pos (by simp [hk])]
      show (ytMap f enc d ((k, v) :: rest)).2 =
        (ytMap f enc d ((k, v) :: rest.filter fun p => yvalue p.1 ≠ shhhKey)).2
      unfold ytMap
      rw [if_neg hk, if_neg hk]
      cases hp : ytProcess f enc (d + 1) v with
      | mk a lg =>
        cases a with
        | none => rfl
        | some v' =>
          have := ytMap_log_filter f enc d rest
          cases hgo1 : ytMap f enc d rest with
          | mk b1 lg1 =>
            cases hgo2 : ytMap f enc d (rest.filter fun p => yvalue p.1 ≠ shhhKey) with
            | mk b2 lg2 =>
              rw [hgo1, hgo2] at this
              simp only at this
              subst this
              cases b1 <;> cases b2 <;> rfl

/-- Tree-level `_shhh` pairs survive the mapping loop byte-identical. -/
theorem ytMap_preserves_shhh {f : List Char → Option (List Char)} {enc : Bool}
    {d : Nat} :
    ∀ {ps out : List (YTree × YTree)} {lg : List (List Char)} {k v : YTree},
      ytMap f enc d ps = (some out, lg) → (k, v) ∈ ps → yvalue k = shhhKey →
        (k, v) ∈ out := by
  intro ps
  induction ps with
  | nil =>
    intro out lg k v h hmem _
    cases hmem
  | cons kv rest ih =>
    intro out lg k v h hmem hk
    obtain ⟨k₀, w⟩ := kv
    by_cases hk₀ : yvalue k₀ = shhhKey
    · rw [ytMap_shhh_skip hk₀] at h
      cases hgo : ytMap f enc d rest with
      | mk a lg2 =>
        rw [hgo] at h
        cases a with
        | none => cases h
        | some rest' =>
          replace h : (some ((k₀, w) :: rest'), lg2) = (some out, lg) := h
          have hout : (k₀, w) :: rest' = out := by
            have := congrArg Prod.fst h
            simpa using this
          subst hout
          rcases List.mem_cons.mp hmem with heq | hmem2
          · rw [heq]
            exact List.mem_cons_self _ _
          · exact List.mem_cons_of_mem _ (ih (by rw [hgo]) hmem2 hk)
    · replace h : (match ytProcess f enc (d + 1) w with
        | (none, lg) => (none, lg)
        | (some v', lg) =>
          match ytMap f enc d rest with
          | (none, lg2) => (none, lg ++ lg2)
          | (some rest', lg2) => (some ((k₀, v') :: rest'), lg ++ lg2)) =
          (some out, lg) := by
        rw [← h]
        simp only [ytMap]
        rw [if_neg hk₀]
      cases hp : ytProcess f enc (d + 1) w with
      | mk a lga =>
        rw [hp] at h
        cases a with
        | none => cases h
        | some w' =>
          cases hgo : ytMap f enc d rest with
          | mk b lgb =>
            rw [hgo] at h
            cases b with
            | none => cases h
            | some rest' =>
              replace h : (some ((k₀, w') :: rest'), lga ++ lgb) = (some out, lg) := h
              have hout : (k₀, w') :: rest' = out := by
                have := congrArg Prod.fst h
                simpa using this
              subst hout
              rcases List.mem_cons.mp hmem with heq | hmem2
              · injection heq with h1 h2
                exact absurd (h1 ▸ hk) hk₀
              · exact List.mem_cons_of_mem _ (ih (by rw [hgo]) hmem2 hk)

/-! ### Resolution lemmas for NativeGPG.Encrypt -/

theorem resolveAll_some_forall {kr : List EntityM} :
    ∀ {recips : List (List Char)} {ents : List EntityM},
      resolveAll kr recips = some ents →
      ∀ r ∈ recips, resolveRecipient kr r ≠ none := by
  intro recips
  induction recips with
  | nil =>
    intro ents _ r hr
    cases hr
  | cons e rest ih =>
    intro ents h r hr
    unfold resolveAll at h
    cases hres : resolveRecipient kr e with
    | none =>
      rw [hres] at h
      cases h
    | some ent =>
      rw [hres] at h
      rcases List.mem_cons.mp hr with rfl | hr2
      · rw [hres]
        simp
      · cases hrest : resolveAll kr rest with
        | none =>
          rw [hrest] at h
          cases h
        | some ents2 => exact ih hrest r hr2

theorem resolveAll_none_of_fail {kr : List EntityM} :
    ∀ {recips : List (List Char)},
      (∃ r ∈ recips, resolveRecipient kr r = none) → resolveAll kr recips = none := by
  intro recips
  induction recips with
  | nil =>
    rintro ⟨r, hr, -⟩
    cases hr
  | cons e rest ih =>
    rintro ⟨r, hr, hres⟩
    unfold resolveAll
    rcases List.mem_cons.mp hr with rfl | hr2
    · rw [hres]
    · cases hrese : resolveRecipient kr e with
      | none => rfl
      | some ent =>
        rw [ih ⟨r, hr2, hres⟩]

/-! ### Sample data for witnesses and counterexamples -/

/-- A toy provider whose encryption prepends one byte; its decryption strips
it, so decryption inverts encryption on every plaintext. -/
def testEnc (v : List Char) (_ : List (List Char)) : Option (List Char) :=
  some ('X' :: v)

def testDec : List Char → Option (List Char)
  | 'X' :: r => some r
  | _ => none

/-- The exact bytes `EncryptFileContent` produces for the one-line `.env`
document `A=x` with the toy provider, vault `v`, mode `values`, time `T0`,
recipient `a@b`. -/
def encSample : List Char :=
  "A=ENC[v1:WHg=]\n\n# shhh metadata\n_SHHH_VERSION=1\n_SHHH_VAULT=v\n_SHHH_MODE=values\n_SHHH_ENCRYPTED_AT=T0\n_SHHH_RECIPIENTS=a@b\n".data

/-- A provider whose operations fail with `ErrInvalidKey`. -/
def errProvider : ProviderM :=
  { lookupKey := fun _ => .error .invalidKey
    importKey := fun _ => .error .invalidKey }

/-- A provider whose operations succeed. -/
def okProvider : ProviderM :=
  { lookupKey := fun _ => .ok ⟨"cli@x".data, "KEY".data⟩
    importKey := fun _ => .ok ⟨"cli@x".data, "KEY".data⟩ }

/-- One keyring entity identifying `a@b`. -/
def sampleEntity : EntityM :=
  { identities := [some "a@b".data], keyId := 7 }

/-- A nest of `n + 1` JSON arrays. -/
def nestArr : Nat → Json
  | 0 => .arr []
  | n + 1 => .arr [nestArr n]

/-- The node graph `yaml.Unmarshal` produces for the two-line document
`_shhh: &a secret` / `x: *a`: id 0 the document, id 1 the mapping with
content `[2, 3, 4, 5]`, id 2 the key `_shhh`, id 3 the anchored scalar
`secret` — the value stored under `_shhh` —, id 4 the key `x`, and id 5 the
alias whose `Alias` pointer is node 3. -/
def yamlAliasStore : List YNode :=
  [⟨.document, [1], [], [], 0, none⟩,
   ⟨.mapping, [2, 3, 4, 5], [], [], 0, none⟩,
   ⟨.scalar, [], "_shhh".data, "!!str".data, 0, none⟩,
   ⟨.scalar, [], "secret".data, "!!str".data, 0, none⟩,
   ⟨.scalar, [], "x".data, "!!str".data, 0, none⟩,
   ⟨.aliasNode, [], [], [], 0, some 3⟩]

/-! ## Claim theorems -/

/-- **C2** (counterexample): the claim says `ImportPublicKey` falls back to
the shell-out backend only on NotFound and propagates any other error
unchanged.  With a built-in backend failing with `ErrInvalidKey` (not
NotFound), `fallbackProvider.ImportPublicKey` nevertheless invokes the
shell-out backend and returns its success instead of the error. -/
theorem shhh_C2_counterexample :
    fbImportKey errProvider okProvider "armored".data =
      .ok ⟨"cli@x".data, "KEY".data⟩ ∧
    (Except.ok ⟨"cli@x".data, "KEY".data⟩ : Except GErr KeyInfoM) ≠
      .error .invalidKey := ⟨rfl, by simp⟩

/-- **C2** (amended): `LookupKey` falls back to the shell-out backend only on
`ErrKeyNotFound` — any other error propagates unchanged and the shell-out
backend is never consulted (the result is independent of it) — while
`ImportPublicKey` falls back on *any* failure of the built-in backend. -/
theorem shhh_C2_fallback_amended (primary fallback : ProviderM)
    (email armored : List Char) :
    (∀ k, primary.lookupKey email = .ok k →
      fbLookupKey primary fallback email = .ok k) ∧
    (∀ err, primary.lookupKey email = .error err → err ≠ .keyNotFound →
      fbLookupKey primary fallback email = .error err) ∧
    (primary.lookupKey email = .error .keyNotFound →
      fbLookupKey primary fallback email = fallback.lookupKey email) ∧
    (∀ k, primary.importKey armored = .ok k →
      fbImportKey primary fallback armored = .ok k) ∧
    (∀ err, primary.importKey armored = .error err →
      fbImportKey primary fallback armored = fallback.importKey armored) := by
  refine ⟨?_, ?_, ?_, ?_, ?_⟩
  · intro k h
    unfold fbLookupKey
    rw [h]
  · intro err h hne
    unfold fbLookupKey
    rw [h]
    simp only
    rw [if_neg hne]
  · intro h
    unfold fbLookupKey
    rw [h]
    simp only
    rw [if_pos trivial]
  · intro k h
    unfold fbImportKey
    rw [h]
  · intro err h
    unfold fbImportKey
    rw [h]

theorem shhh_C2_fallback_amended_witness :
    fbLookupKey errProvider okProvider "e@x".data = .error .invalidKey ∧
    fbImportKey errProvider okProvider "a".data = okProvider.importKey "a".data :=
  ⟨(shhh_C2_fallback_amended errProvider okProvider "e@x".data "a".data).2.1
      .invalidKey rfl (by simp),
    (shhh_C2_fallback_amended errProvider okProvider "e@x".data "a".data).2.2.2.2
      .invalidKey rfl⟩

/-- **C3**: the built-in backend's Encrypt succeeds only if every recipient
email resolves against the loaded keyring, and if any single recipient is
unresolved the whole operation fails with no ciphertext. -/
theorem shhh_C3_all_or_nothing (keyring : List EntityM) (data : List Char)
    (recipients : List (List Char)) :
    (∀ result, nativeEncrypt keyring data recipients = some result →
      ∀ r ∈ recipients, resolveRecipient keyring r ≠ none) ∧
    ((∃ r ∈ recipients, resolveRecipient keyring r = none) →
      nativeEncrypt keyring data recipients = none) := by
  constructor
  · intro result h r hr
    unfold nativeEncrypt at h
    cases hres : resolveAll keyring recipients with
    | none =>
      rw [hres] at h
      cases h
    | some ents => exact resolveAll_some_forall hres r hr
  · intro hex
    unfold nativeEncrypt
    rw [resolveAll_none_of_fail hex]

theorem shhh_C3_all_or_nothing_witness :
    nativeEncrypt [sampleEntity] "secret".data ["a@b".data, "nobody@x".data] = none :=
  (shhh_C3_all_or_nothing [sampleEntity] "secret".data
    ["a@b".data, "nobody@x".data]).2 ⟨"nobody@x".data, by simp, rfl⟩

/-- **C10**: `EncryptValue` with an empty recipient list fails without ever
invoking the provider (the result is `none` for every provider), and the
built-in backend's Encrypt likewise fails on an empty recipient list. -/
theorem shhh_C10_empty_recipients :
    (∀ (pEnc : List Char → List (List Char) → Option (List Char)) (pt : List Char),
      EncryptValue pEnc [] pt = none) ∧
    (∀ (keyring : List EntityM) (data : List Char),
      nativeEncrypt keyring data [] = none) := by
  constructor
  · intro pEnc pt
    unfold EncryptValue
    rw [if_pos rfl]
  · intro keyring data
    rfl

/-- Spec-side detection table, following the spec's words: a pure function
of the lower-cased filename extension. -/
def specFormatOfExt (ext : List Char) : FileFormat :=
  if ext = ".yaml".data ∨ ext = ".yml".data then .yaml
  else if ext = ".json".data then .json
  else if ext = ".ini".data ∨ ext = ".cfg".data ∨ ext = ".conf".data then .ini
  else if ext = ".env".data then .env
  else .unknown

/-- **C5** (counterexample): the claim says format detection is a pure
function of the filename extension alone with no content sniffing, and that
every filename without a recognized extension maps to Unknown.  The
repository's second `DetectFormat` (the two-argument variant) sniffs the
content when the extension is unrecognized: the same filename `secrets`
detects as JSON or Unknown depending on the bytes. -/
theorem shhh_C5_counterexample :
    DetectFormatSniff "secrets".data "{}".data = FileFormat.json ∧
    DetectFormatSniff "secrets".data [] = FileFormat.unknown ∧
    FileFormat.json ≠ FileFormat.unknown := ⟨rfl, rfl, by decide⟩

/-- **C5** (amended): the engine's `DetectFormat` (internal/parser/detect.go,
the one-argument function all callers use) is a pure function of the
lower-cased filename extension realizing exactly the spec's table; the
repository's second, two-argument `DetectFormat` additionally sniffs content
when the extension is unrecognized. -/
theorem shhh_C5_detect_amended :
    (∀ fn : List Char, DetectFormat fn = specFormatOfExt (lowerStr (extOf fn))) ∧
    (∀ fn₁ fn₂ : List Char, extOf fn₁ = extOf fn₂ → DetectFormat fn₁ = DetectFormat fn₂) ∧
    (∀ fn content : List Char,
      DetectFormatSniff fn content =
        if specFormatOfExt (lowerStr (extOf fn)) = .unknown then detectByContent content
        else specFormatOfExt (lowerStr (extOf fn))) := by
  refine ⟨fun fn => rfl, fun fn₁ fn₂ h => by unfold DetectFormat; rw [h], fun fn content => ?_⟩
  unfold DetectFormatSniff specFormatOfExt
  by_cases h1 : lowerStr (extOf fn) = ".yaml".data ∨ lowerStr (extOf fn) = ".yml".data
  · rw [if_pos h1, if_pos h1, if_neg (by decide)]
  · rw [if_neg h1, if_neg h1]
    by_cases h2 : lowerStr (extOf fn) = ".json".data
    · rw [if_pos h2, if_pos h2, if_neg (by decide)]
    · rw [if_neg h2, if_neg h2]
      by_cases h3 : lowerStr (extOf fn) = ".ini".data ∨ lowerStr (extOf fn) = ".cfg".data ∨
          lowerStr (extOf fn) = ".conf".data
      · rw [if_pos h3, if_pos h3, if_neg (by decide)]
      · rw [if_neg h3, if_neg h3]
        by_cases h4 : lowerStr (extOf fn) = ".env".data
        · rw [if_pos h4, if_pos h4, if_neg (by decide)]
        · rw [if_neg h4, if_neg h4, if_pos rfl]

theorem shhh_C5_detect_amended_witness :
    DetectFormat "a.yml".data = FileFormat.yaml ∧
    DetectFormat "a.yml".data = DetectFormat "b.yml".data ∧
    DetectFormatSniff "x".data "{}".data = FileFormat.json := by
  refine ⟨(shhh_C5_detect_amended.1 "a.yml".data).trans (by decide),
    shhh_C5_detect_amended.2.1 "a.yml".data "b.yml".data (by decide),
    (shhh_C5_detect_amended.2.2 "x".data "{}".data).trans (by decide)⟩

/-- **C9** (counterexample): the claim says `DecodeValue` returns the
payload with *all* embedded whitespace removed.  The pattern admits tabs,
but `DecodeValue` only strips `"\n"` and `" "`: a tab survives. -/
theorem shhh_C9_counterexample :
    DecodeValue "ENC[v1:a\tb]".data = some "a\tb".data ∧
    "a\tb".data ≠ "ab".data := ⟨rfl, by decide⟩

/-- **C9** (amended): for every string of the form `ENC[v1:p]` with `p` a
non-empty mix of base64-alphabet and whitespace characters, `DecodeValue`
accepts it and returns `p` with embedded newline and space characters
removed (tab, carriage-return and form-feed characters admitted by the
pattern are retained); every string not of that form has `IsEncrypted`
false and is rejected by `DecodeValue`. -/
theorem shhh_C9_decode_amended :
    (∀ p : List Char, p ≠ [] → (∀ c ∈ p, isEncChar c = true) →
      IsEncrypted (encHead ++ p ++ [']']) = true ∧
      DecodeValue (encHead ++ p ++ [']']) =
        some ((p.filter fun c => c ≠ '\n').filter fun c => c ≠ ' ')) ∧
    (∀ s : List Char,
      (¬∃ p, s = encHead ++ p ++ [']'] ∧ p ≠ [] ∧ ∀ c ∈ p, isEncChar c = true) →
      IsEncrypted s = false ∧ DecodeValue s = none) := by
  constructor
  · intro p hne hall
    exact ⟨IsEncrypted_encode hne hall, DecodeValue_encode hne hall⟩
  · intro s hform
    exact ⟨IsEncrypted_false_of_not_form hform, DecodeValue_none_of_not_form hform⟩

theorem shhh_C9_decode_amended_witness :
    (IsEncrypted "ENC[v1:QUJD]".data = true ∧
      DecodeValue "ENC[v1:QUJD]".data = some "QUJD".data) ∧
    (IsEncrypted "hello".data = false ∧ DecodeValue "hello".data = none) := by
  constructor
  · exact (shhh_C9_decode_amended.1 "QUJD".data (by decide) (by decide))
  · refine shhh_C9_decode_amended.2 "hello".data ?_
    rintro ⟨p, hp, -, -⟩
    have := congrArg List.length hp
    simp [encHead] at this

/-- **C4** (counterexample): the claim says every scalar that is neither a
marker nor the empty string is replaced by `encryptFn(value)`.  A JSON
number is such a scalar, yet `processValue` passes it through unchanged and
never invokes the transform (the invocation log stays empty). -/
theorem shhh_C4_counterexample :
    jsonProcessT (fun _ => some "CIPHER".data) true 0
      (Json.obj [("port".data, Json.num 8080)]) =
      (some (Json.obj [("port".data, Json.num 8080)]), []) ∧
    Json.num 8080 ≠ Json.str "CIPHER".data := ⟨rfl, by intro h; cases h⟩

/-- **C4** (amended): in the JSON and ENV encryptors, a *string* scalar that
already matches `ENC[v1:...]` or is empty passes through byte-identical and
untransformed, every other string scalar is replaced by `encryptFn(value)`,
and non-string JSON scalars (numbers, booleans, null) pass through
unchanged; consequently re-encrypting a document whose string scalars are
all markers or empty leaves it byte-identical. -/
theorem shhh_C4_scalar_amended :
    (∀ (f : List Char → Option (List Char)) (d : Nat) (s : List Char),
      d ≤ maxNestingDepth → (IsEncrypted s = true ∨ s = []) →
      jsonProcessT f true d (.str s) = (some (.str s), [])) ∧
    (∀ (f : List Char → Option (List Char)) (d : Nat) (s : List Char),
      d ≤ maxNestingDepth → IsEncrypted s = false → s ≠ [] →
      jsonProcessT f true d (.str s) = ((f s).map Json.str, [s])) ∧
    (∀ (f : List Char → Option (List Char)) (d : Nat) (v : Json),
      d ≤ maxNestingDepth → (v = .null ∨ (∃ b, v = .bool b) ∨ ∃ q, v = .num q) →
      jsonProcessT f true d v = (some v, [])) ∧
    (∀ (f : List Char → Option (List Char)) (key w : List Char), keyOK key →
      (IsEncrypted (unquoteValue w).1 = true ∨ (unquoteValue w).1 = []) →
      processLineT f true (key ++ '=' :: w) = (some (key ++ '=' :: w), [])) ∧
    (∀ (f : List Char → Option (List Char)) (j : Json),
      jdepth j ≤ 101 → allMarked j = true → jsonProcessT f true 0 j = (some j, [])) := by
  refine ⟨fun f d s hd h => jsonProcessT_str_pass hd h,
    fun f d s hd h1 h2 => jsonProcessT_str_hit hd h1 h2,
    ?_, ?_, fun f j hd hm => processT_marked j 0 (by omega) hm⟩
  · intro f d v hd hv
    have hdep : ¬maxNestingDepth < d := by omega
    rcases hv with rfl | ⟨b, rfl⟩ | ⟨q, rfl⟩ <;> rw [jsonProcessT_eq, if_neg hdep]
  · intro f key w hk h
    rw [processLineT_keyval hk f true]
    simp only [if_true]
    rw [if_neg (by rcases h with h | h <;> simp [h])]

theorem shhh_C4_scalar_amended_witness :
    jsonProcessT (fun _ => some "C".data) true 0 (.str "ENC[v1:QQ==]".data) =
      (some (.str "ENC[v1:QQ==]".data), []) ∧
    jsonProcessT (fun _ => some "C".data) true 0 (.str "top-secret".data) =
      (some (.str "C".data), ["top-secret".data]) := by
  constructor
  · exact shhh_C4_scalar_amended.1 (fun _ => some "C".data) 0 "ENC[v1:QQ==]".data
      (by decide) (Or.inl (by decide))
  · have := shhh_C4_scalar_amended.2.1 (fun _ => some "C".data) 0 "top-secret".data
      (by decide) (by decide) (by decide)
    simpa using this

set_option maxRecDepth 40000 in
/-- **C6** (counterexample): the claim says a structure nested too deeply is
rejected *before any transform function has been applied to any value*.
Processing `{"a": "x", "b": <102 nested arrays>}` in map order applies the
transform to `"x"` (the invocation log is `["x"]`) and only then fails on
the deep branch. -/
theorem shhh_C6_counterexample :
    jsonProcessT (fun s => some s) true 0
      (Json.obj [("a".data, Json.str "x".data), ("b".data, nestArr 101)]) =
      (none, ["x".data]) ∧
    (["x".data] : List (List Char)) ≠ [] := by
  constructor
  · rfl
  · simp

/-- **C6** (amended): content over 50 MiB fails validation before parsing
and before any transform runs (the result is the bare error and the
invocation log is empty, for every parser and transform), and any structure
whose (non-`_shhh`) nesting depth exceeds the ceiling makes the JSON
traversal fail with an error and no output — though transforms may already
have been applied to values in branches traversed before the deep one. -/
theorem shhh_C6_limits_amended :
    (∀ (parse : List Char → Option Json) (ser : Json → List Char)
      (f : List Char → Option (List Char)) (enc : Bool) (content : List Char),
      maxFileSize < content.length → jsonValuesT parse ser f enc content = (none, [])) ∧
    (∀ (f : List Char → Option (List Char)) (enc : Bool) (content : List Char),
      maxFileSize < content.length → envValuesT f enc content = (none, [])) ∧
    (∀ (f : List Char → Option (List Char)) (enc : Bool) (j : Json),
      101 < jdepth j → (jsonProcessT f enc 0 j).1 = none) := by
  exact ⟨fun parse ser f enc content h => jsonValuesT_oversize parse ser f enc h,
    fun f enc content h => envValuesT_oversize f enc h,
    fun f enc j h => processT_depth f enc j 0 (by omega)⟩

theorem shhh_C6_limits_amended_witness :
    envValuesT (fun s => some s) true (List.replicate 52428801 'a') = (none, []) ∧
    (jsonProcessT (fun s => some s) true 0 (nestArr 101)).1 = none := by
  constructor
  · exact shhh_C6_limits_amended.2.1 (fun s => some s) true (List.replicate 52428801 'a')
      (by rw [List.length_replicate]; unfold maxFileSize; omega)
  · refine shhh_C6_limits_amended.2.2 (fun s => some s) true (nestArr 101) ?_
    have : ∀ n, jdepth (nestArr n) = n + 1 := by
      intro n
      induction n with
      | zero => rfl
      | succ k ih =>
        show jdepth (.arr [nestArr k]) = k + 2
        unfold jdepth jdepthArr
        rw [ih]
        simp [jdepthArr]
        omega
    rw [this 101]
    omega

/-- **C7** (counterexample): the claim says values stored under the
reserved `_shhh` mapping entry are never transformed, for YAML too.  For
the YAML document `_shhh: &a secret` / `x: *a` the anchored scalar node
holding `secret` is the `_shhh` entry's value (the mapping's pair
`[2, 3]`), yet `processNode` reaches that very node through the alias
`*a` and transforms it: the invocation log shows the transform applied to
`secret`, and the node's value afterwards is the transformed `Xsecret`. -/
theorem shhh_C7_counterexample :
    yamlProcessT (fun v => some ('X' :: v)) true yamlAliasStore 0 =
      (some (yamlAliasStore.set 3
        ⟨.scalar, [], "Xsecret".data, "!!str".data, literalStyle, none⟩),
       ["secret".data]) ∧
    yamlAliasStore.get? 1 = some ⟨.mapping, [2, 3, 4, 5], [], [], 0, none⟩ ∧
    yamlAliasStore.get? 2 = some ⟨.scalar, [], shhhKey, "!!str".data, 0, none⟩ ∧
    yamlAliasStore.get? 3 = some ⟨.scalar, [], "secret".data, "!!str".data, 0, none⟩ ∧
    "Xsecret".data ≠ "secret".data := ⟨rfl, rfl, rfl, rfl, by decide⟩

/-- **C7** (amended): neither `EncryptValues` nor `DecryptValues` applies
the transform to a value reached through the reserved metadata key's own
entry: the JSON object loop contributes no `_shhh` values to the
invocation log and preserves `_shhh` entries byte-identical,
`_SHHH_`-prefixed ENV lines pass through untouched with an empty log, the
`_shhh` INI section is skipped wholesale, and YAML's mapping loop skips a
pair whose key node holds `_shhh` without recursing into its value — so in
an anchor/alias-free YAML document (a node tree) `_shhh` pairs survive
byte-identical and contribute nothing to the log.  The original claim
fails only through YAML aliasing: an anchored node stored under `_shhh`
that an alias elsewhere shares is transformed through the alias path (the
counterexample). -/
theorem shhh_C7_reserved_amended :
    (∀ (f : List Char → Option (List Char)) (enc : Bool) (d : Nat)
      (kvs : List (List Char × Json)),
      (jsonObjGo f enc d kvs).2 =
        (jsonObjGo f enc d (kvs.filter fun kv => kv.1 ≠ shhhKey)).2) ∧
    (∀ (f : List Char → Option (List Char)) (enc : Bool) (d : Nat)
      (kvs out : List (List Char × Json)) (lg : List (List Char)) (v : Json),
      jsonObjGo f enc d kvs = (some out, lg) → (shhhKey, v) ∈ kvs →
        (shhhKey, v) ∈ out) ∧
    (∀ (f : List Char → Option (List Char)) (enc : Bool) (line : List Char),
      isPre shhhEnvKey (trimSpace line) = true →
        processLineT f enc line = (some line, [])) ∧
    (∀ (f : List Char → Option (List Char)) (enc : Bool)
      (keys : List (List Char × List Char)),
      iniSectionGo f enc shhhSection keys = (some keys, [])) ∧
    (∀ (step : List YNode → Nat → Option (List YNode) × List (List Char))
      (st : List YNode) (k v : Nat) (rest : List Nat) (kn : YNode),
      st.get? k = some kn → kn.value = shhhKey →
        yamlMapF step st (k :: v :: rest) = yamlMapF step st rest) ∧
    (∀ (f : List Char → Option (List Char)) (enc : Bool) (d : Nat)
      (ps : List (YTree × YTree)),
      (ytMap f enc d ps).2 =
        (ytMap f enc d (ps.filter fun p => yvalue p.1 ≠ shhhKey)).2) ∧
    (∀ (f : List Char → Option (List Char)) (enc : Bool) (d : Nat)
      (ps out : List (YTree × YTree)) (lg : List (List Char)) (k v : YTree),
      ytMap f enc d ps = (some out, lg) → (k, v) ∈ ps → yvalue k = shhhKey →
        (k, v) ∈ out) :=
  ⟨fun f enc d kvs => jsonObjGo_log_filter f enc d kvs,
    fun _ _ _ _ _ _ _ h hm => jsonObjGo_preserves_shhh h hm,
    fun _ _ _ h => processLineT_shhh h,
    fun f enc keys => iniSectionGo_shhh f enc keys,
    fun _ _ _ _ _ _ hget hk => yamlMapF_shhh_skip hget hk,
    fun f enc d ps => ytMap_log_filter f enc d ps,
    fun _ _ _ _ _ _ _ _ h hm hk => ytMap_preserves_shhh h hm hk⟩

theorem shhh_C7_reserved_amended_witness :
    processLineT (fun _ => none) true "_SHHH_VERSION=1".data =
      (some "_SHHH_VERSION=1".data, []) ∧
    yamlMapF (fun st' _ => (some st', [])) yamlAliasStore [2, 3] =
      yamlMapF (fun st' _ => (some st', [])) yamlAliasStore [] ∧
    (YTree.scalarT shhhKey [] 0, YTree.scalarT "m".data [] 0) ∈
      [(YTree.scalarT shhhKey [] 0, YTree.scalarT "m".data [] 0)] := by
  refine ⟨?_, ?_, ?_⟩
  · exact shhh_C7_reserved_amended.2.2.1 (fun _ => none) true
      "_SHHH_VERSION=1".data (by decide)
  · exact shhh_C7_reserved_amended.2.2.2.2.1 (fun st' _ => (some st', []))
      yamlAliasStore 2 3 [] ⟨.scalar, [], shhhKey, "!!str".data, 0, none⟩
      rfl rfl
  · exact shhh_C7_reserved_amended.2.2.2.2.2.2 (fun _ => none) true 0
      [(.scalarT shhhKey [] 0, .scalarT "m".data [] 0)]
      [(.scalarT shhhKey [] 0, .scalarT "m".data [] 0)] [] _ _ rfl
      (List.mem_cons_self _ _) rfl

/-- **C8** (counterexample): the claim says
`RemoveENVMetadata (AddENVMetadata doc m) == doc` for *every* ENV document.
For the document `A=1` without a trailing newline the round trip returns
`A=1\n`: the strip loop re-emits every kept line newline-terminated. -/
theorem shhh_C8_counterexample :
    RemoveENVMetadata (AddENVMetadata "A=1".data [("version".data, "1".data)]) =
      "A=1\n".data ∧
    "A=1\n".data ≠ "A=1".data := ⟨rfl, by decide⟩

/-- **C8** (amended): for every ENV document that is a newline-terminated
sequence of lines free of `'\n'`/`'\r'`, none of which trims to the
`# shhh metadata` marker, whose last line is not blank, and every metadata
map whose rendered `_SHHH_*` lines are single clean lines,
`RemoveENVMetadata (AddENVMetadata doc m)` reconstructs `doc`
byte-for-byte. -/
theorem shhh_C8_strip_attach_amended (ls : List (List Char))
    (meta : List (List Char × List Char))
    (hl : ∀ l ∈ ls, '\n' ∉ l ∧ '\r' ∉ l ∧ trimSpace l ≠ envMetaMarker)
    (hlast : ∀ l, ls.getLast? = some l → trimSpace l ≠ [])
    (hm : ∀ kv ∈ meta, '\n' ∉ envMetaLine kv ∧ '\r' ∉ envMetaLine kv) :
    RemoveENVMetadata (AddENVMetadata (joinLines ls) meta) = joinLines ls :=
  remove_add_env hl hlast hm

theorem shhh_C8_strip_attach_amended_witness :
    RemoveENVMetadata (AddENVMetadata "A=1\n".data [("version".data, "1".data)]) =
      "A=1\n".data := by
  have h := shhh_C8_strip_attach_amended ["A=1".data] [("version".data, "1".data)]
    (by
      intro l hl
      simp only [List.mem_singleton] at hl
      subst hl
      exact ⟨by decide, by decide, by decide⟩)
    (by
      intro l hl
      simp only [List.getLast?_singleton, Option.some.injEq] at hl
      subst hl
      decide)
    (by
      intro kv hkv
      simp only [List.mem_singleton] at hkv
      subst hkv
      exact ⟨by decide, by decide⟩)
  exact h

set_option maxRecDepth 40000 in
/-- **C1** (counterexample): the claim says decryption inverts encryption
byte-for-byte for every well-formed document, given a provider whose
Decrypt inverts its Encrypt.  The toy provider satisfies that hypothesis
(first two conjuncts show it at the value used), yet for the `.env`
document `A=x` — no trailing newline — values-mode `EncryptFileContent`
followed by `DecryptFileContent` returns `A=x\n`, not the original. -/
theorem shhh_C1_counterexample :
    testEnc "x".data ["a@b".data] = some "Xx".data ∧
    testDec "Xx".data = some "x".data ∧
    encryptFileEnv testEnc "v".data "values".data "T0".data ["a@b".data] "A=x".data =
      some encSample ∧
    decryptFileEnv testDec encSample = some "A=x\n".data ∧
    "A=x\n".data ≠ "A=x".data := ⟨rfl, rfl, by rfl, by rfl, by decide⟩

/-- **C1** (amended): with a provider whose Decrypt inverts its Encrypt
(with non-empty byte ciphertexts), full-file mode round-trips every `.env`
document byte-for-byte; values mode round-trips every canonical `.env`
document — newline-terminated lines that are pass-through lines or
`key=value` lines with clean keys and plain (or blank) values, no line
mistakable for the metadata marker or the envelope header, non-blank last
line — provided both the document and the encrypted artifact are within
the size ceiling. -/
theorem shhh_C1_roundtrip_amended
    (pEnc : List Char → List (List Char) → Option (List Char))
    (pDec : List Char → Option (List Char))
    (vault mode now content cipher : List Char) (recips ls : List (List Char)) :
    ('\n' ∉ vault → '\n' ∉ now → (∀ r ∈ recips, '\n' ∉ r) →
      pEnc content recips = some cipher → cipher ≠ [] →
      (∀ c ∈ cipher, c.toNat < 256) → pDec cipher = some content →
      ∃ out, encryptFileEnv pEnc vault "full".data now recips content = some out ∧
        decryptFileEnv pDec out = some content) ∧
    (recips ≠ [] →
      (∀ v, (∀ ch ∈ v, ch.toNat < 256) → ∃ c, pEnc v recips = some c ∧ c ≠ [] ∧
        (∀ ch ∈ c, ch.toNat < 256) ∧ pDec c = some v) →
      (∀ l ∈ ls, lineOK l) →
      (∀ l, ls.getLast? = some l → trimSpace l ≠ []) →
      mode ≠ "full".data →
      ('\n' ∉ vault ∧ '\r' ∉ vault) → ('\n' ∉ mode ∧ '\r' ∉ mode) →
      ('\n' ∉ now ∧ '\r' ∉ now) → (∀ r ∈ recips, '\n' ∉ r ∧ '\r' ∉ r) →
      validSize (joinLines ls) = true →
      ∀ out, encryptFileEnv pEnc vault mode now recips (joinLines ls) = some out →
        validSize out = true → decryptFileEnv pDec out = some (joinLines ls)) := by
  constructor
  · intro hv hn hr hc hcne hb hinv
    obtain ⟨h1, h2⟩ := full_mode_roundtrip hv hn hr hc hcne hb hinv
    exact ⟨_, h1, h2⟩
  · intro hrec hprov hok hlast hmode hv hm hn hr hsz
    exact values_mode_roundtrip hrec hprov hok hlast hmode hv hm hn hr hsz

set_option maxRecDepth 40000 in
theorem shhh_C1_roundtrip_amended_witness :
    (∃ out, encryptFileEnv testEnc "v".data "full".data "T0".data ["a@b".data]
        "doc".data = some out ∧
      decryptFileEnv testDec out = some "doc".data) ∧
    decryptFileEnv testDec encSample = some "A=x\n".data := by
  have hprov : ∀ v : List Char, (∀ ch ∈ v, ch.toNat < 256) →
      ∃ c, testEnc v ["a@b".data] = some c ∧ c ≠ [] ∧
        (∀ ch ∈ c, ch.toNat < 256) ∧ testDec c = some v := by
    intro v hv
    refine ⟨'X' :: v, rfl, by simp, ?_, rfl⟩
    intro ch hch
    rcases List.mem_cons.mp hch with rfl | h
    · decide
    · exact hv ch h
  constructor
  · exact (shhh_C1_roundtrip_amended testEnc testDec "v".data "values".data "T0".data
      "doc".data ('X' :: "doc".data) ["a@b".data] []).1
      (by decide) (by decide)
      (by intro r hr; simp only [List.mem_singleton] at hr; subst hr; decide)
      rfl (by simp) (by decide) rfl
  · refine (shhh_C1_roundtrip_amended testEnc testDec "v".data "values".data "T0".data
      "doc".data ('X' :: "doc".data) ["a@b".data] ["A=x".data]).2
      (by simp) hprov ?_ ?_ (by decide) ⟨by decide, by decide⟩ ⟨by decide, by decide⟩
      ⟨by decide, by decide⟩
      (by intro r hr; simp only [List.mem_singleton] at hr; subst hr
          exact ⟨by decide, by decide⟩)
      (by decide) encSample (by rfl) (by decide)
    · intro l hl
      simp only [List.mem_singleton] at hl
      subst hl
      refine ⟨by decide, by decide, by decide, by decide, Or.inr ?_⟩
      refine ⟨"A".data, "x".data, rfl, ⟨by decide, by decide, by decide, by decide⟩,
        Or.inr ⟨⟨by decide, by decide, by decide⟩, by decide⟩⟩
    · intro l hl
      simp only [List.getLast?_singleton, Option.some.injEq] at hl
      subst hl
      decide

end Shhh
